import Mathlib

/-!
Verification of the descartes-reneri report-generation scripts
(`scripts/generate_reports.py`, the basis variant, and `scripts/generate_report.py`,
an earlier near-duplicate, called v2 below).

Strings are modelled as `List Char` so that all operations reduce in the kernel.
Python regular-expression matching is modelled by dedicated recursive matchers
that follow the backtracking semantics of `re` for the concrete patterns that
appear in the source; each matcher is annotated with the pattern fragment it
implements and with the argument for why the implementation is equivalent to
the backtracking search (greedy runs followed by a required literal are forced
to be maximal, ordered alternation is first-match-wins when the continuation
cannot fail, etc.).  Python exceptions (AttributeError on a failed match,
IndexError on list/group access, parse errors from the `parsy` library) are
modelled with `Except PyErr`.
-/

abbrev Str := List Char

def str (s : String) : Str := s.data

/-- Python exception outcomes that the modelled code can raise. -/
inductive PyErr where
  /-- `AttributeError`: calling a method on `None` (failed `re` match object). -/
  | attrNone
  /-- `IndexError`: out-of-bounds list index, e.g. `entry['unexpected'][0]`. -/
  | indexOOB
  /-- `IndexError: no such group`: `match.group(name)` for a name the pattern lacks. -/
  | noSuchGroup
  /-- `parsy.ParseError`: the descriptor parser rejected its input. -/
  | parseError
  /-- `KeyError` / non-termination of the v2 signature loop on malformed input. -/
  | badSignature
deriving DecidableEq, Repr

deriving instance DecidableEq for Except

/-- ASCII model of the `re` class `\d` (the scripts only ever feed ASCII). -/
def isDigit (c : Char) : Bool := '0' ≤ c && c ≤ '9'

/-- A greedy character-class run `[p]+` that the pattern immediately follows with a
required literal `sep`.  Backtracking cannot help here: a shorter run leaves a
`p`-character at the position where `sep` is required, so the run is forced to be
the maximal one.  Fails if the run is empty or `sep` does not follow. -/
def runThen (p : Char → Bool) (sep : Char) (s : Str) : Option (Str × Str) :=
  if (s.takeWhile p).isEmpty then none
  else
    match s.dropWhile p with
    | c :: rest' => if c = sep then some (s.takeWhile p, rest') else none
    | [] => none

namespace Pointcut

/-!
Model of `POINTCUT_PATTERN` (identical in both scripts):

    (?P<class>[^\|]+)\|
    (?P<method>[^\|]+)\|
    (
        ((?P<description>[^\|]+)\|(?P<invocation>\d+)\|\#((?P<result>result)|(?P<that>that)|(?P<argument>\d+)))
        |
        ((?P<expression>\d+)|(?P<exception>!))
    )
    (\|(?P<field>[^\#\|]+))?
    (\|\#((?P<size>size)|(?P<length>length)))?

used through `POINTCUT_PATTERN.match(...)`, i.e. anchored at the start of the
string only: a match may consume just a prefix and leave trailing text.
-/

/-- The result of `match.groupdict()`: every named group, `none` when unmatched. -/
structure Groups where
  cls : Option Str
  method : Option Str
  description : Option Str
  invocation : Option Str
  result : Option Str
  that : Option Str
  argument : Option Str
  expression : Option Str
  exception : Option Str
  field : Option Str
  size : Option Str
  length : Option Str
deriving DecidableEq, Repr

def emptyGroups : Groups :=
  ⟨none, none, none, none, none, none, none, none, none, none, none, none⟩

/-- Third alternative set of the first branch: `(result|that|\d+)`.  Ordered
alternation; everything after the branch group is optional, so the first
alternative that matches is final (no backtracking into later alternatives). -/
inductive Tgt where
  | result
  | that
  | arg (digits : Str)
deriving DecidableEq, Repr

def matchTarget (s : Str) : Option (Tgt × Str) :=
  if (str "result").isPrefixOf s then some (.result, s.drop 6)
  else if (str "that").isPrefixOf s then some (.that, s.drop 4)
  else if (s.takeWhile isDigit).isEmpty then none
  else some (.arg (s.takeWhile isDigit), s.dropWhile isDigit)

/-- First branch alternative:
`(?P<description>[^\|]+)\|(?P<invocation>\d+)\|\#(result|that|\d+)`. -/
def matchAlt1 (s : Str) : Option (Str × Str × Tgt × Str) :=
  match runThen (· ≠ '|') '|' s with
  | none => none
  | some (desc, s1) =>
    match runThen isDigit '|' s1 with
    | none => none
    | some (inv, s2) =>
      match s2 with
      | [] => none
      | c :: s3 =>
        if c = '#' then
          match matchTarget s3 with
          | none => none
          | some (t, s4) => some (desc, inv, t, s4)
        else none

/-- Second branch alternative: `((?P<expression>\d+)|(?P<exception>!))`. -/
inductive Branch2 where
  | expr (digits : Str)
  | exc
deriving DecidableEq, Repr

def matchAlt2 (s : Str) : Option (Branch2 × Str) :=
  if !(s.takeWhile isDigit).isEmpty then some (.expr (s.takeWhile isDigit), s.dropWhile isDigit)
  else
    match s with
    | c :: r => if c = '!' then some (.exc, r) else none
    | [] => none

/-- Optional suffix `(\|(?P<field>[^\#\|]+))?`.  Greedy run with nothing
required after it inside the group, hence maximal; if the inner part cannot
match, the whole optional group is skipped consuming nothing. -/
def optField (s : Str) : Option Str × Str :=
  match s with
  | c :: r =>
    if c = '|' then
      if (r.takeWhile (fun c2 => c2 ≠ '#' && c2 ≠ '|')).isEmpty then (none, s)
      else (some (r.takeWhile (fun c2 => c2 ≠ '#' && c2 ≠ '|')),
            r.dropWhile (fun c2 => c2 ≠ '#' && c2 ≠ '|'))
    else (none, s)
  | [] => (none, s)

/-- Optional suffix `(\|\#((?P<size>size)|(?P<length>length)))?`. -/
def optSizeLen (s : Str) : Option Str × Option Str × Str :=
  match s with
  | [] => (none, none, [])
  | [c1] => (none, none, [c1])
  | c1 :: c2 :: r =>
    if c1 = '|' && c2 = '#' then
      if (str "size").isPrefixOf r then (some (str "size"), none, r.drop 4)
      else if (str "length").isPrefixOf r then (none, some (str "length"), r.drop 6)
      else (none, none, c1 :: c2 :: r)
    else (none, none, c1 :: c2 :: r)

def branchGroups : (Str × Str × Tgt) ⊕ Branch2 → Groups
  | .inl (d, i, .result) =>
    { emptyGroups with description := some d, invocation := some i, result := some (str "result") }
  | .inl (d, i, .that) =>
    { emptyGroups with description := some d, invocation := some i, that := some (str "that") }
  | .inl (d, i, .arg ds) =>
    { emptyGroups with description := some d, invocation := some i, argument := some ds }
  | .inr (.expr ds) => { emptyGroups with expression := some ds }
  | .inr .exc => { emptyGroups with exception := some (str "!") }

/-- The alternation of the two branch shapes, in pattern order. -/
def matchBranch (s2 : Str) : Option (Groups × Str) :=
  match matchAlt1 s2 with
  | some (d, i, t, r) => some (branchGroups (.inl (d, i, t)), r)
  | none =>
    match matchAlt2 s2 with
    | some (b, r) => some (branchGroups (.inr b), r)
    | none => none

/-- `POINTCUT_PATTERN.match(s)`: `none` models a `None` match object, otherwise
the groupdict together with the unconsumed remainder of the string (Python's
`match` accepts a matching prefix and ignores trailing text). -/
def pmatch (s : Str) : Option (Groups × Str) :=
  match runThen (· ≠ '|') '|' s with
  | none => none
  | some (cls, s1) =>
    match runThen (· ≠ '|') '|' s1 with
    | none => none
    | some (mth, s2) =>
      match matchBranch s2 with
      | none => none
      | some (core, s3) =>
        some ({ core with
                cls := some cls, method := some mth,
                field := (optField s3).1,
                size := (optSizeLen (optField s3).2).1,
                length := (optSizeLen (optField s3).2).2.1 },
              (optSizeLen (optField s3).2).2.2)

end Pointcut

section PointcutChecks

example :
    Pointcut.pmatch (str "Foo|bar|0|3|#result") =
      some ({ Pointcut.emptyGroups with
                cls := some (str "Foo"), method := some (str "bar"),
                description := some (str "0"), invocation := some (str "3"),
                result := some (str "result") }, []) := by decide

example :
    Pointcut.pmatch (str "Foo|bar|!") =
      some ({ Pointcut.emptyGroups with
                cls := some (str "Foo"), method := some (str "bar"),
                exception := some (str "!") }, []) := by decide

example :
    Pointcut.pmatch (str "Foo|bar|2|field") =
      some ({ Pointcut.emptyGroups with
                cls := some (str "Foo"), method := some (str "bar"),
                expression := some (str "2"), field := some (str "field") }, []) := by decide

example :
    Pointcut.pmatch (str "Foo|bar|!x") =
      some ({ Pointcut.emptyGroups with
                cls := some (str "Foo"), method := some (str "bar"),
                exception := some (str "!") }, ['x']) := by decide

example : Pointcut.pmatch (str "Foo|bar") = none := by decide

example : Pointcut.pmatch (str "a|b|c|d|#result") = none := by decide

end PointcutChecks

/-- Python `dict` assignment `d[k] = v`: an existing key keeps its insertion
position and gets the new value; a new key is appended at the end. -/
def pyDictInsert {α : Type} (k : Str) (v : α) (d : List (Str × α)) : List (Str × α) :=
  if d.any (fun p => p.1 = k) then d.map (fun p => if p.1 = k then (k, v) else p)
  else d ++ [(k, v)]

def pyDictKeys {α : Type} (d : List (Str × α)) : List Str := d.map (fun p => p.1)

/-- Python `dict.get(k, None)`. -/
def pyDictGet {α : Type} (d : List (Str × α)) (k : Str) : Option α :=
  (d.find? (fun p => p.1 = k)).map (fun p => p.2)

theorem ok_bind {α β : Type} (a : α) (f : α → Except PyErr β) :
    (Except.ok a >>= f : Except PyErr β) = f a := rfl

theorem error_bind {α β : Type} (e : PyErr) (f : α → Except PyErr β) :
    ((Except.error e : Except PyErr α) >>= f) = .error e := rfl

namespace Diffs

/-- Opaque payload of a JSON value inside a diff entry (never inspected by the
loading code, only copied). -/
abbrev Val := Str

/-- One element of the `diff.json` list: `{"pointcut": ..., "expected": [...],
"unexpected": [...]}`. -/
structure DiffEntry where
  pointcut : Str
  expected : List Val
  unexpected : List Val
deriving DecidableEq, Repr

/-- The structured diff record built by `load_diffs` for each kept entry. -/
structure DiffRec where
  pointcut : Pointcut.Groups
  expected : Val
  observed : Val
deriving DecidableEq, Repr

abbrev Dict := List (Str × DiffRec)

/-- The body of `load_diffs` (`generate_reports.py` builds the same dict by a
comprehension, `generate_report.py` by an explicit loop): for each entry, in
list order, skip it unless `len(entry['expected']) == 1`; otherwise evaluate
`POINTCUT_PATTERN.match(entry['pointcut']).groupdict()` (AttributeError when the
match is `None`), `entry['expected'][0]` (safe: the filter guarantees one
element), and `entry['unexpected'][0]` (IndexError when empty), and store the
record under the raw pointcut string. -/
def buildDict : List DiffEntry → Dict → Except PyErr Dict
  | [], acc => .ok acc
  | e :: rest, acc =>
    if e.expected.length = 1 then
      match Pointcut.pmatch e.pointcut with
      | none => .error .attrNone
      | some (g, _) =>
        match e.unexpected with
        | [] => .error .indexOOB
        | v :: _ => buildDict rest (pyDictInsert e.pointcut ⟨g, e.expected.headD [], v⟩ acc)
    else buildDict rest acc

/-- `load_diffs`: the hint folder's optional `diff.json` content (`none` models
a missing file — `exists()` check in `generate_reports.py`, caught
`FileNotFoundError` in `generate_report.py`), yielding the empty dict. -/
def loadDiffs : Option (List DiffEntry) → Except PyErr Dict
  | none => .ok []
  | some data => buildDict data []

/-- `list(diffs.values())`. -/
def dictValues (d : Dict) : List DiffRec := d.map (fun p => p.2)

end Diffs

namespace TestCases

/-!
Model of the two test-identifier regular expressions of `generate_reports.py`

    TEST_CASE_PATTERN  = ^(?P<class>.+)\.(?P<method>[^\[]+)((?P<params>\[.*\])?\((?P=class)?\))?$
    TEST_CLASS_PATTERN = ^(?P<class>.+)\.(?P=class)$

and of the `re.search(r"\.(?P<test>\w+\.\w+)\(", test)` call of
`generate_report.py`.  `.` does not match a newline; `$` matches at the end of
the string or just before a terminating newline.  The backtracking engine tries
the longest `.+` capture first and the longest `[^\[]+` run first; an optional
group is tried present before absent.  Only match success and the `class` /
`method` captures are observable, so group-internal alternatives are explored
as a plain existence check.
-/

def dollarEnd (rest : Str) : Bool := rest = [] || rest = ['\n']

/-- `TEST_CLASS_PATTERN`: the captured `class` is the longest `X` (newline-free,
nonempty) with `s = X ++ "." ++ X ++ t` and `$` holding at `t`. -/
def testClassMatch (s : Str) : Option Str :=
  ((List.range s.length).reverse.map (· + 1)).findSome? fun n =>
    let cls := s.take n
    if cls.any (· = '\n') then none
    else
      match s.drop n with
      | '.' :: r =>
        if cls.isPrefixOf r && dollarEnd (r.drop cls.length) then some cls else none
      | _ => none

/-- All remainders after matching `\[.*\]` when the input starts with `[`:
one candidate per later `]` that is not preceded by a newline (`.*` cannot
cross a newline). -/
def bracketRests : Str → List Str
  | [] => []
  | '\n' :: _ => []
  | ']' :: r => r :: bracketRests r
  | _ :: r => bracketRests r

def paramsRests (s : Str) : List Str :=
  match s with
  | '[' :: r => bracketRests r
  | _ => []

/-- Does `((?P<params>\[.*\])?\((?P=class)?\))$` match at `r` (for some choice
of the optional parts)? -/
def groupThenEnd (cls : Str) (r : Str) : Bool :=
  (paramsRests r ++ [r]).any fun r1 =>
    match r1 with
    | '(' :: r2 =>
      (cls.isPrefixOf r2 &&
        (match r2.drop cls.length with
         | ')' :: r3 => dollarEnd r3
         | _ => false)) ||
      (match r2 with
       | ')' :: r3 => dollarEnd r3
       | _ => false)
    | _ => false

/-- The tail `((?P<params>\[.*\])?\((?P=class)?\))?$` after the method capture:
group present, or group absent and `$` immediately. -/
def tcTail (cls r : Str) : Bool := groupThenEnd cls r || dollarEnd r

/-- Greedy `(?P<method>[^\[]+)` followed by the optional tail: the longest
prefix of the `[^\[]` run for which the tail completes. -/
def tcTryMethod (cls afterDot : Str) : Option Str :=
  let maxRun := afterDot.takeWhile (· ≠ '[')
  ((List.range maxRun.length).reverse.map (· + 1)).findSome? fun k =>
    if tcTail cls (afterDot.drop k) then some (afterDot.take k) else none

/-- `TEST_CASE_PATTERN.match(s)`, returning the `class` and `method` captures. -/
def testCaseMatch (s : Str) : Option (Str × Str) :=
  ((List.range s.length).reverse.map (· + 1)).findSome? fun n =>
    let cls := s.take n
    if cls.any (· = '\n') then none
    else
      match s.drop n with
      | '.' :: afterDot => (tcTryMethod cls afterDot).map (fun m => (cls, m))
      | _ => none

inductive TCMatch where
  | classOnly (cls : Str)
  | caseMatch (cls method : Str)
deriving DecidableEq, Repr

/-- `match_test_case`: `TEST_CLASS_PATTERN.match(test_case) or
TEST_CASE_PATTERN.match(test_case)`. -/
def matchTestCase (s : Str) : Option TCMatch :=
  match testClassMatch s with
  | some c => some (.classOnly c)
  | none => (testCaseMatch s).map (fun p => .caseMatch p.1 p.2)

structure TestCaseRec where
  cls : Str
  method : Option Str
deriving DecidableEq, Repr

/-- The per-identifier body of `load_test_cases` in `generate_reports.py`:
no match at all falls back to `{'class': case}`; a match is consumed by
`{'class': match.group("class"), 'method': match.group("method")}` — but a match
coming from `TEST_CLASS_PATTERN` has no group named `method`, so
`match.group("method")` raises `IndexError: no such group`. -/
def processCase (s : Str) : Except PyErr TestCaseRec :=
  match matchTestCase s with
  | none => .ok ⟨s, none⟩
  | some (.caseMatch c m) => .ok ⟨c, some m⟩
  | some (.classOnly _) => .error .noSuchGroup

end TestCases

section TestCaseChecks

example : TestCases.matchTestCase (str "com.ex.FooTest.testBar") =
    some (.caseMatch (str "com.ex.FooTest") (str "testBar")) := by decide

example : TestCases.matchTestCase (str "x") = none := by decide

example : TestCases.processCase (str "x") = .ok ⟨str "x", none⟩ := rfl

example : TestCases.matchTestCase (str "Foo.Foo") = some (.classOnly (str "Foo")) := by decide

example : TestCases.processCase (str "Foo.Foo") = .error .noSuchGroup := rfl

example : TestCases.matchTestCase (str "com.ex.FooTest.testBar[1](com.ex.FooTest)") =
    some (.caseMatch (str "com.ex.FooTest.testBar[1](com.ex") (str "FooTest)")) := by decide

end TestCaseChecks

namespace TestCases

/-- ASCII model of the `re` class `\w` (Python's `\w` additionally matches
non-ASCII word characters; the reports only carry ASCII identifiers). -/
def isWordChar (c : Char) : Bool := c.isAlphanum || c = '_'

/-- `\.(?P<test>\w+\.\w+)\(` matched at the start of `s`: both `\w+` runs are
forced maximal because each is followed by a required non-word literal. -/
def matchTestAtV2 (s : Str) : Option Str :=
  match s with
  | '.' :: r =>
    let run1 := r.takeWhile isWordChar
    if run1.isEmpty then none
    else
      match r.dropWhile isWordChar with
      | '.' :: r2 =>
        let run2 := r2.takeWhile isWordChar
        if run2.isEmpty then none
        else
          match r2.dropWhile isWordChar with
          | '(' :: _ => some (run1 ++ '.' :: run2)
          | _ => none
      | _ => none
  | _ => none

/-- `re.search(r"\.(?P<test>\w+\.\w+)\(", test)`: leftmost start position wins. -/
def searchTestV2 (s : Str) : Option Str :=
  (List.range (s.length + 1)).findSome? fun i => matchTestAtV2 (s.drop i)

/-- The per-identifier body of `load_test_cases` in `generate_report.py`:
`match.group("test")` is called without a `None` check, so an identifier the
search does not match raises `AttributeError`. -/
def processCaseV2 (s : Str) : Except PyErr Str :=
  match searchTestV2 s with
  | none => .error .attrNone
  | some t => .ok t

end TestCases

namespace Report

/-- The `mutation['method']` object of the structured report (`mutations.json`). -/
structure MethodObj where
  package : Str
  cls : Str
  name : Str
  description : Str
deriving DecidableEq, Repr

/-- One element of `data['mutations']`. -/
structure ReportMutation where
  mutator : Str
  status : Str
  method : MethodObj
  /-- `mutation['tests']['ordered']` -/
  testsOrdered : List Str
deriving DecidableEq, Repr

structure MutationReport where
  mutations : List ReportMutation
deriving DecidableEq, Repr

/-- `mutation_id` (v1) / `mutation_id1`, `mutation_id2` (v2):
`f'{package}.{class}.{method}{description}{mutator}'`. -/
def mutationId (package cls method description mutator : Str) : Str :=
  package ++ str "." ++ cls ++ str "." ++ method ++ description ++ mutator

def ReportMutation.id (m : ReportMutation) : Str :=
  mutationId m.method.package m.method.cls m.method.name m.method.description m.mutator

abbrev TCDict := List (Str × List TestCases.TestCaseRec)

/-- Loop body of `load_test_cases` (`generate_reports.py`): skip any mutation
whose `status` differs from the exact string `'SURVIVED'`; parse each test
identifier with `match_test_case`; store under the composite mutation id. -/
def loadTestCasesGo : List ReportMutation → TCDict → Except PyErr TCDict
  | [], acc => .ok acc
  | m :: rest, acc =>
    if m.status ≠ str "SURVIVED" then loadTestCasesGo rest acc
    else
      match m.testsOrdered.mapM TestCases.processCase with
      | .error e => .error e
      | .ok newTests => loadTestCasesGo rest (pyDictInsert m.id newTests acc)

def loadTestCases (report : MutationReport) : Except PyErr TCDict :=
  loadTestCasesGo report.mutations []

abbrev TCDictV2 := List (Str × List Str)

/-- Loop body of `load_test_cases` (`generate_report.py`): same `'SURVIVED'`
filter, but each test identifier goes through the `re.search` shape that raises
on a non-match. -/
def loadTestCasesV2Go : List ReportMutation → TCDictV2 → Except PyErr TCDictV2
  | [], acc => .ok acc
  | m :: rest, acc =>
    if m.status ≠ str "SURVIVED" then loadTestCasesV2Go rest acc
    else
      match m.testsOrdered.mapM TestCases.processCaseV2 with
      | .error e => .error e
      | .ok tests => loadTestCasesV2Go rest (pyDictInsert m.id tests acc)

def loadTestCasesV2 (report : MutationReport) : Except PyErr TCDictV2 :=
  loadTestCasesV2Go report.mutations []

end Report

section ReportChecks

example : TestCases.searchTestV2 (str "com.ex.FooTest.testBar(com.ex.FooTest)") =
    some (str "FooTest.testBar") := by decide

example : TestCases.searchTestV2 (str "x") = none := by decide

example : TestCases.processCaseV2 (str "x") = .error .attrNone := rfl

end ReportChecks

namespace Descriptor

/-!
Model of `create_description_parser` (`generate_reports.py`), a `parsy`
combinator parser.

    QUALIFIED_NAME = regex(r'[^\.;\[/\(\):]+').sep_by(string('/')).combine(joining('.'))
    PRIMITIVE_TYPE = regex('[BCDFIJSZ]').map(lambda i: JVM_PRIMITIVE_TYPES[i])
    CLASS_NAME     = string('L') >> QUALIFIED_NAME << string(';')
    ARRAY          = seq(string('[').at_least(1).map(lambda o: '[]' * len(o)),
                         (PRIMITIVE_TYPE | CLASS_NAME)).combine(lambda o, t: t + o)
    TYPE           = PRIMITIVE_TYPE | CLASS_NAME | ARRAY
    RETURN_TYPE    = string('V').map(lambda _: 'void') | TYPE
    DESCRIPTION    = seq(string('(') >> TYPE.many().combine(joining(',')),
                         string(')') >> RETURN_TYPE)

`parsy` semantics: alternation `|` tries the left parser and, on its failure,
the right parser from the same start position; `many` / `at_least` / `sep_by`
iterate greedily and discard the consumption of a failed iteration; sequencing
commits (no backtracking into an earlier committed alternative); `.parse`
requires the whole input to be consumed.  The two iterating parsers are written
with an explicit fuel argument (instantiated with the input length, which the
iteration can never exhaust because every step consumes at least one
character) so that they are structurally recursive and reduce in the kernel.
Greedy character runs followed by a required literal are forced maximal, so
they are modelled by `takeWhile` / `dropWhile`.
-/

def primName : Char → Option Str
  | 'B' => some (str "byte")
  | 'C' => some (str "char")
  | 'D' => some (str "double")
  | 'F' => some (str "float")
  | 'I' => some (str "int")
  | 'J' => some (str "long")
  | 'S' => some (str "short")
  | 'Z' => some (str "boolean")
  | _ => none

def parsePrim (s : Str) : Option (Str × Str) :=
  match s with
  | c :: rest => (primName c).map (fun n => (n, rest))
  | [] => none

def qnameChar (c : Char) : Bool :=
  c ≠ '.' && c ≠ ';' && c ≠ '[' && c ≠ '/' && c ≠ '(' && c ≠ ')' && c ≠ ':'

def parseQSegsF : Nat → Str → List Str × Str
  | 0, s => ([s.takeWhile qnameChar], s.dropWhile qnameChar)
  | fuel + 1, s =>
    match s.dropWhile qnameChar with
    | c :: r =>
      if c = '/' then
        if (r.takeWhile qnameChar).isEmpty then ([s.takeWhile qnameChar], c :: r)
        else
          let p := parseQSegsF fuel r
          (s.takeWhile qnameChar :: p.1, p.2)
      else ([s.takeWhile qnameChar], c :: r)
    | [] => ([s.takeWhile qnameChar], [])

def parseQName (s : Str) : List Str × Str :=
  if (s.takeWhile qnameChar).isEmpty then ([], s) else parseQSegsF s.length s

def joinDots (segs : List Str) : Str := List.intercalate ['.'] segs

def parseClass (s : Str) : Option (Str × Str) :=
  match s with
  | c :: r =>
    if c = 'L' then
      let p := parseQName r
      match p.2 with
      | c2 :: r2 => if c2 = ';' then some (joinDots p.1, r2) else none
      | [] => none
    else none
  | [] => none

def parseArray (s : Str) : Option (Str × Str) :=
  let n := (s.takeWhile (· = '[')).length
  if n = 0 then none
  else
    let rest := s.dropWhile (· = '[')
    match parsePrim rest <|> parseClass rest with
    | some (t, r) => some (t ++ (List.replicate n (str "[]")).flatten, r)
    | none => none

def parseType (s : Str) : Option (Str × Str) :=
  parsePrim s <|> parseClass s <|> parseArray s

def parseTypesF : Nat → Str → List Str × Str
  | 0, s => ([], s)
  | fuel + 1, s =>
    match parseType s with
    | some (t, r) =>
      let p := parseTypesF fuel r
      (t :: p.1, p.2)
    | none => ([], s)

def parseTypes (s : Str) : List Str × Str := parseTypesF s.length s

def parseRet (s : Str) : Option (Str × Str) :=
  match s with
  | c :: r => if c = 'V' then some (str "void", r) else parseType (c :: r)
  | [] => none

def parseDescription (s : Str) : Option (List Str × Str) :=
  match s with
  | c :: r =>
    if c = '(' then
      let p := parseTypes r
      match p.2 with
      | c2 :: r2 =>
        if c2 = ')' then
          match parseRet r2 with
          | some (ret, r3) => if r3.isEmpty then some (p.1, ret) else none
          | none => none
        else none
      | [] => none
    else none
  | [] => none

def joinCommas (params : List Str) : Str := List.intercalate [','] params

def signatureFn (d : Str) : Option Str :=
  (parseDescription d).map (fun p => '(' :: (joinCommas p.1 ++ [')']))

def isVoidFn (d : Str) : Option Bool :=
  (parseDescription d).map (fun p => decide (p.2 = str "void"))

example : parseDescription (str "()V") = some ([], str "void") := by decide
example : parseDescription (str "(I[Ljava/lang/String;)Z") =
    some ([str "int", str "java.lang.String[]"], str "boolean") := by decide

/-! Grammar of well-formed descriptors and its rendering / display. -/

inductive Prim where
  | pB
  | pC
  | pD
  | pF
  | pI
  | pJ
  | pS
  | pZ
deriving DecidableEq, Repr

def Prim.letter : Prim → Char
  | .pB => 'B'
  | .pC => 'C'
  | .pD => 'D'
  | .pF => 'F'
  | .pI => 'I'
  | .pJ => 'J'
  | .pS => 'S'
  | .pZ => 'Z'

def Prim.jname : Prim → Str
  | .pB => str "byte"
  | .pC => str "char"
  | .pD => str "double"
  | .pF => str "float"
  | .pI => str "int"
  | .pJ => str "long"
  | .pS => str "short"
  | .pZ => str "boolean"

inductive JBase where
  | prim (p : Prim)
  | cls (segs : List Str)
deriving DecidableEq, Repr

inductive JType where
  | base (b : JBase)
  | arr (n : Nat) (b : JBase)
deriving DecidableEq, Repr

inductive JRet where
  | void
  | typ (t : JType)
deriving DecidableEq, Repr

def JBase.Valid : JBase → Prop
  | .prim _ => True
  | .cls segs => segs ≠ [] ∧ ∀ seg ∈ segs, seg ≠ [] ∧ ∀ c ∈ seg, qnameChar c

def JType.Valid : JType → Prop
  | .base b => b.Valid
  | .arr n b => 1 ≤ n ∧ b.Valid

def JRet.Valid : JRet → Prop
  | .void => True
  | .typ t => t.Valid

def JBase.render : JBase → Str
  | .prim p => [p.letter]
  | .cls segs => 'L' :: (List.intercalate ['/'] segs ++ [';'])

def JType.render : JType → Str
  | .base b => b.render
  | .arr n b => List.replicate n '[' ++ b.render

def JRet.render : JRet → Str
  | .void => ['V']
  | .typ t => t.render

def JBase.display : JBase → Str
  | .prim p => p.jname
  | .cls segs => List.intercalate ['.'] segs

def JType.display : JType → Str
  | .base b => b.display
  | .arr n b => b.display ++ (List.replicate n (str "[]")).flatten

def JRet.display : JRet → Str
  | .void => str "void"
  | .typ t => t.display

def renderDescriptor (params : List JType) (ret : JRet) : Str :=
  '(' :: (params.flatMap JType.render ++ ')' :: ret.render)

/-! Round-trip lemmas. -/

theorem takeWhile_seg_stop {seg : Str} (hv : ∀ c ∈ seg, qnameChar c) (c : Char)
    (hc : qnameChar c = false) (t : Str) :
    (seg ++ c :: t).takeWhile qnameChar = seg ∧ (seg ++ c :: t).dropWhile qnameChar = c :: t := by
  constructor
  · rw [List.takeWhile_append_of_pos hv, List.takeWhile_cons, hc]
    simp
  · rw [List.dropWhile_append_of_pos hv, List.dropWhile_cons, hc]
    simp

theorem intercalate_singleton (s a : Str) : List.intercalate s [a] = a := by
  simp [List.intercalate]

theorem intercalate_cons2 (s a b : Str) (t : List Str) :
    List.intercalate s (a :: b :: t) = a ++ s ++ List.intercalate s (b :: t) := by
  simp [List.intercalate, List.intersperse]

theorem isEmpty_false_of_ne_nil {l : Str} (h : l ≠ []) : l.isEmpty = false := by
  cases l with
  | nil => exact absurd rfl h
  | cons c t => rfl

theorem takeWhile_intercalate_ne_nil (segs : List Str) (r2 : Str)
    (hne : segs ≠ []) (hv : ∀ seg ∈ segs, seg ≠ [] ∧ ∀ c ∈ seg, qnameChar c) :
    ((List.intercalate ['/'] segs ++ ';' :: r2).takeWhile qnameChar).isEmpty = false := by
  cases segs with
  | nil => exact absurd rfl hne
  | cons seg rest =>
    obtain ⟨hsne, hsv⟩ := hv seg (by simp)
    cases rest with
    | nil =>
      rw [intercalate_singleton, (takeWhile_seg_stop hsv ';' (by decide) r2).1]
      exact isEmpty_false_of_ne_nil hsne
    | cons seg2 more =>
      rw [intercalate_cons2]
      have h2 : seg ++ ['/'] ++ List.intercalate ['/'] (seg2 :: more) ++ ';' :: r2
          = seg ++ '/' :: (List.intercalate ['/'] (seg2 :: more) ++ ';' :: r2) := by
        simp
      rw [h2, (takeWhile_seg_stop hsv '/' (by decide) _).1]
      exact isEmpty_false_of_ne_nil hsne

theorem parseQSegsF_render (segs : List Str) (r2 : Str) :
    ∀ fuel, segs ≠ [] → (∀ seg ∈ segs, seg ≠ [] ∧ ∀ c ∈ seg, qnameChar c) →
    (List.intercalate ['/'] segs ++ ';' :: r2).length ≤ fuel →
    parseQSegsF fuel (List.intercalate ['/'] segs ++ ';' :: r2) = (segs, ';' :: r2) := by
  induction segs with
  | nil => intro fuel h; exact absurd rfl h
  | cons seg rest ih =>
    intro fuel hne hv hfuel
    obtain ⟨hsne, hsv⟩ := hv seg (by simp)
    cases rest with
    | nil =>
      rw [intercalate_singleton] at hfuel ⊢
      have hstop := takeWhile_seg_stop hsv ';' (by decide) r2
      cases fuel with
      | zero =>
        exfalso
        rw [List.length_append] at hfuel
        simp at hfuel
      | succ fuel =>
        rw [parseQSegsF, hstop.2]
        simp [hstop.1]
    | cons seg2 more =>
      rw [intercalate_cons2] at hfuel ⊢
      have hsh : seg ++ ['/'] ++ List.intercalate ['/'] (seg2 :: more) ++ ';' :: r2
          = seg ++ '/' :: (List.intercalate ['/'] (seg2 :: more) ++ ';' :: r2) := by
        simp
      rw [hsh] at hfuel ⊢
      have hstop := takeWhile_seg_stop hsv '/' (by decide)
        (List.intercalate ['/'] (seg2 :: more) ++ ';' :: r2)
      cases fuel with
      | zero =>
        exfalso
        rw [List.length_append] at hfuel
        simp at hfuel
      | succ fuel =>
        rw [parseQSegsF, hstop.2]
        have hlen : (List.intercalate ['/'] (seg2 :: more) ++ ';' :: r2).length ≤ fuel := by
          rw [List.length_append, List.length_cons] at hfuel
          have := List.length_pos.mpr hsne
          omega
        have hrec := ih fuel (by simp) (fun s hs => hv s (by simp [hs])) hlen
        have hs2head := takeWhile_intercalate_ne_nil (seg2 :: more) r2
          (by simp) (fun s hs => hv s (by simp [hs]))
        simp only [hstop.1, if_pos rfl, hs2head, Bool.false_eq_true, if_false, hrec]
        simp

theorem parseQName_render (segs : List Str) (r2 : Str)
    (hne : segs ≠ []) (hv : ∀ seg ∈ segs, seg ≠ [] ∧ ∀ c ∈ seg, qnameChar c) :
    parseQName (List.intercalate ['/'] segs ++ ';' :: r2) = (segs, ';' :: r2) := by
  rw [parseQName, takeWhile_intercalate_ne_nil segs r2 hne hv]
  simp only [Bool.false_eq_true, if_false]
  exact parseQSegsF_render segs r2 _ hne hv (le_refl _)

theorem joinDots_display (segs : List Str) :
    joinDots segs = JBase.display (.cls segs) := rfl

theorem parseClass_render (segs : List Str) (rest : Str)
    (hne : segs ≠ []) (hv : ∀ seg ∈ segs, seg ≠ [] ∧ ∀ c ∈ seg, qnameChar c) :
    parseClass (JBase.render (.cls segs) ++ rest)
      = some (JBase.display (.cls segs), rest) := by
  have hshape : JBase.render (.cls segs) ++ rest
      = 'L' :: (List.intercalate ['/'] segs ++ ';' :: rest) := by
    simp [JBase.render]
  rw [hshape, parseClass]
  simp only [if_pos rfl, parseQName_render segs rest hne hv]
  simp [joinDots_display]

theorem parsePrim_render (p : Prim) (rest : Str) :
    parsePrim (JBase.render (.prim p) ++ rest) = some (p.jname, rest) := by
  cases p <;> rfl

theorem parsePrim_L_none (rest : Str) : parsePrim ('L' :: rest) = none := rfl

theorem parseBase_render (b : JBase) (rest : Str) (hv : b.Valid) :
    (parsePrim (b.render ++ rest) <|> parseClass (b.render ++ rest))
      = some (b.display, rest) := by
  cases b with
  | prim p => rw [parsePrim_render p rest]; rfl
  | cls segs =>
    obtain ⟨hne, hvs⟩ := hv
    have hshape : JBase.render (.cls segs) ++ rest
        = 'L' :: (List.intercalate ['/'] segs ++ ';' :: rest) := by
      simp [JBase.render]
    rw [hshape, parsePrim_L_none, ← hshape, parseClass_render segs rest hne hvs]
    rfl

theorem render_base_head_ne (b : JBase) (c : Char)
    (hc : c = '[' ∨ c = 'V') : ∀ r, b.render ≠ c :: r := by
  intro r h
  rcases hc with h1 | h1 <;> subst h1 <;>
    cases b with
    | prim p => cases p <;> simp [JBase.render, Prim.letter] at h
    | cls segs => simp [JBase.render] at h

theorem render_base_ne_nil (b : JBase) : b.render ≠ [] := by
  cases b with
  | prim p => cases p <;> simp [JBase.render]
  | cls segs => simp [JBase.render]

theorem render_type_ne_nil (t : JType) (hv : t.Valid) : t.render ≠ [] := by
  cases t with
  | base b => exact render_base_ne_nil b
  | arr n b =>
    obtain ⟨hn, -⟩ := hv
    rw [JType.render]
    intro h
    rcases List.append_eq_nil.mp h with ⟨h1, -⟩
    rw [List.replicate_eq_nil_iff] at h1
    omega

theorem takeWhile_brackets (n : Nat) (b : JBase) (rest : Str) :
    (List.replicate n '[' ++ (b.render ++ rest)).takeWhile (· = '[') = List.replicate n '['
    ∧ (List.replicate n '[' ++ (b.render ++ rest)).dropWhile (· = '[') = b.render ++ rest := by
  have hall : ∀ c ∈ List.replicate n '[', (c = '[' : Bool) := by
    intro c hc
    simp [List.eq_of_mem_replicate hc]
  constructor
  · rw [List.takeWhile_append_of_pos hall]
    obtain ⟨c, r, hcr⟩ : ∃ c r, b.render = c :: r := by
      cases hb : b.render with
      | nil => exact absurd hb (render_base_ne_nil b)
      | cons c r => exact ⟨c, r, rfl⟩
    have hcne : ¬(c = '[' : Bool) := by
      intro hcc
      exact render_base_head_ne b '[' (Or.inl rfl) r (by rw [hcr]; simp at hcc; rw [hcc])
    rw [hcr, List.cons_append, List.takeWhile_cons]
    simp at hcne
    simp [hcne]
  · rw [List.dropWhile_append_of_pos hall]
    obtain ⟨c, r, hcr⟩ : ∃ c r, b.render = c :: r := by
      cases hb : b.render with
      | nil => exact absurd hb (render_base_ne_nil b)
      | cons c r => exact ⟨c, r, rfl⟩
    have hcne : ¬(c = '[' : Bool) := by
      intro hcc
      exact render_base_head_ne b '[' (Or.inl rfl) r (by rw [hcr]; simp at hcc; rw [hcc])
    rw [hcr, List.cons_append, List.dropWhile_cons]
    simp at hcne
    simp [hcne]

theorem parseArray_render (n : Nat) (b : JBase) (rest : Str) (hn : 1 ≤ n) (hv : b.Valid) :
    parseArray (JType.render (.arr n b) ++ rest)
      = some (JType.display (.arr n b), rest) := by
  rw [JType.render, List.append_assoc, parseArray]
  have htw := takeWhile_brackets n b rest
  simp only [htw.1, htw.2, List.length_replicate]
  rw [if_neg (by omega), parseBase_render b rest hv]
  rfl

theorem parseType_render (t : JType) (rest : Str) (hv : t.Valid) :
    parseType (t.render ++ rest) = some (t.display, rest) := by
  cases t with
  | base b =>
    rw [parseType]
    cases b with
    | prim p =>
      rw [show JType.render (.base (.prim p)) = JBase.render (.prim p) from rfl,
          parsePrim_render p rest]
      rfl
    | cls segs =>
      obtain ⟨hne, hvs⟩ := hv
      have hshape : JType.render (.base (.cls segs)) ++ rest
          = 'L' :: (List.intercalate ['/'] segs ++ ';' :: rest) := by
        simp [JType.render, JBase.render]
      rw [hshape, parsePrim_L_none, ← hshape]
      rw [show JType.render (.base (.cls segs)) = JBase.render (.cls segs) from rfl,
          parseClass_render segs rest hne hvs]
      rfl
  | arr n b =>
    obtain ⟨hn, hvb⟩ := hv
    rw [parseType]
    obtain ⟨m, hm⟩ : ∃ m, n = m + 1 := ⟨n - 1, by omega⟩
    subst hm
    have hshape : JType.render (.arr (m + 1) b) ++ rest
        = '[' :: (List.replicate m '[' ++ b.render ++ rest) := by
      simp [JType.render, List.replicate_succ]
    rw [hshape]
    have h1 : parsePrim ('[' :: (List.replicate m '[' ++ b.render ++ rest)) = none := rfl
    have h2 : parseClass ('[' :: (List.replicate m '[' ++ b.render ++ rest)) = none := by
      rw [parseClass]
      simp
    rw [h1, h2, ← hshape, parseArray_render (m + 1) b rest (by omega) hvb]
    rfl

theorem parseType_rparen_none (r : Str) : parseType (')' :: r) = none := by
  rw [parseType]
  have h1 : parsePrim (')' :: r) = none := rfl
  have h2 : parseClass (')' :: r) = none := by rw [parseClass]; simp
  have h3 : parseArray (')' :: r) = none := by
    rw [parseArray]
    simp [List.takeWhile_cons]
  rw [h1, h2, h3]
  rfl

theorem parseTypesF_render (params : List JType) (r2 : Str) :
    ∀ fuel, (∀ t ∈ params, t.Valid) →
    (params.flatMap JType.render ++ ')' :: r2).length ≤ fuel →
    parseTypesF fuel (params.flatMap JType.render ++ ')' :: r2)
      = (params.map JType.display, ')' :: r2) := by
  induction params with
  | nil =>
    intro fuel hv hfuel
    cases fuel with
    | zero => simp only [List.flatMap_nil, List.nil_append, List.map_nil]; rfl
    | succ fuel =>
      simp only [List.flatMap_nil, List.nil_append, List.map_nil]
      rw [parseTypesF, parseType_rparen_none]
  | cons t ts ih =>
    intro fuel hv hfuel
    have hvt := hv t (by simp)
    have hshape : (t :: ts).flatMap JType.render ++ ')' :: r2
        = t.render ++ (ts.flatMap JType.render ++ ')' :: r2) := by
      simp
    rw [hshape] at hfuel ⊢
    cases fuel with
    | zero =>
      exfalso
      have := List.length_pos.mpr (render_type_ne_nil t hvt)
      rw [List.length_append] at hfuel
      omega
    | succ fuel =>
      rw [parseTypesF, parseType_render t _ hvt]
      have hlen : (ts.flatMap JType.render ++ ')' :: r2).length ≤ fuel := by
        rw [List.length_append] at hfuel
        have := List.length_pos.mpr (render_type_ne_nil t hvt)
        omega
      have hihv := ih fuel (fun u hu => hv u (by simp [hu])) hlen
      simp only [hihv]
      simp

theorem render_ret_head_ne_V (t : JType) (hv : t.Valid) :
    ∀ c r, t.render = c :: r → c ≠ 'V' := by
  intro c r h hc
  subst hc
  cases t with
  | base b => exact render_base_head_ne b 'V' (Or.inr rfl) r h
  | arr n b =>
    obtain ⟨hn, -⟩ := hv
    obtain ⟨m, hm⟩ : ∃ m, n = m + 1 := ⟨n - 1, by omega⟩
    subst hm
    rw [JType.render, List.replicate_succ] at h
    simp at h

theorem parseRet_render (ret : JRet) (rest : Str) (hv : ret.Valid) :
    parseRet (ret.render ++ rest) = some (ret.display, rest) := by
  cases ret with
  | void => rfl
  | typ t =>
    obtain ⟨c, r, hcr⟩ : ∃ c r, t.render = c :: r := by
      cases hb : t.render with
      | nil => exact absurd hb (render_type_ne_nil t hv)
      | cons c r => exact ⟨c, r, rfl⟩
    have hne := render_ret_head_ne_V t hv c r hcr
    rw [JRet.render, hcr, List.cons_append, parseRet, if_neg hne, ← List.cons_append, ← hcr,
        parseType_render t rest hv]
    rfl

theorem parseDescription_render (params : List JType) (ret : JRet)
    (hparams : ∀ t ∈ params, t.Valid) (hret : ret.Valid) :
    parseDescription (renderDescriptor params ret)
      = some (params.map JType.display, ret.display) := by
  rw [renderDescriptor, parseDescription]
  simp only [if_pos rfl]
  have htypes : parseTypes (params.flatMap JType.render ++ ')' :: ret.render)
      = (params.map JType.display, ')' :: ret.render) :=
    parseTypesF_render params ret.render _ hparams (le_refl _)
  simp only [htypes, if_pos rfl]
  have hret2 : parseRet ret.render = some (ret.display, []) := by
    have := parseRet_render ret [] hret
    rwa [List.append_nil] at this
  simp only [hret2]
  rfl

end Descriptor


namespace Descriptor

/-!
Model of `parse_signature` (`generate_report.py`): an index-based loop over the
descriptor that renders the parameter types (joined by `", "`) and drops the
return type entirely.  The normal path is modelled exactly; the abnormal paths
(`KeyError` on an unknown letter, `IndexError` when the index runs past the
end, and the restart-from-zero non-termination when `find(";")` returns `-1`)
are all collapsed into the `badSignature` error.  The loop always advances the
index, so `s.length + 1` fuel can never run out on the terminating paths.
-/

/-- Python `s.find(c, start)`, restricted to the found case (`none` for `-1`). -/
def pyFindFrom (s : Str) (c : Char) (start : Nat) : Option Nat :=
  ((s.drop start).findIdx? (· = c)).map (start + ·)

def parseSignatureV2Loop (s : Str) (i : Nat) (suffix : Str) (types : List Str) :
    Nat → Except PyErr (List Str)
  | 0 => .error .badSignature
  | fuel + 1 =>
    match s.drop i with
    | [] => .error .badSignature
    | c :: _ =>
      if c = ')' then .ok types.reverse
      else if c = '[' then parseSignatureV2Loop s (i + 1) (suffix ++ str "[]") types fuel
      else if c = 'L' then
        match pyFindFrom s ';' (i + 1) with
        | none => .error .badSignature
        | some j =>
          let seg := ((s.drop (i + 1)).take (j - (i + 1))).map
            (fun ch => if ch = '/' then '.' else ch)
          parseSignatureV2Loop s (j + 1) [] ((seg ++ suffix) :: types) fuel
      else
        match primName c with
        | none => .error .badSignature
        | some n => parseSignatureV2Loop s (i + 1) [] ((n ++ suffix) :: types) fuel

def parseSignatureV2 (s : Str) : Except PyErr Str :=
  match s.findIdx? (· = '(') with
  | none => .error .badSignature
  | some i =>
    match parseSignatureV2Loop s (i + 1) [] [] (s.length + 1) with
    | .error e => .error e
    | .ok types => .ok (s.take i ++ '(' :: (List.intercalate (str ", ") types ++ [')']))

/-- `is_void` (`generate_report.py`): `signature.endswith("V")`. -/
def isVoidV2 (s : Str) : Bool := s.getLast? = some 'V'

end Descriptor

section DescriptorChecks

example : Descriptor.parseSignatureV2 (str "()V") = .ok (str "()") := rfl

example : Descriptor.parseSignatureV2 (str "(I[Ljava/lang/String;)Z") =
    .ok (str "(int, java.lang.String[])") := rfl

example : Descriptor.isVoidV2 (str "()V") = true := by decide

example : Descriptor.isVoidV2 (str "(I[Ljava/lang/String;)Z") = false := by decide

example : Descriptor.signatureFn (str "()V") = some (str "()") := by decide

end DescriptorChecks

namespace Hints

/-!
Model of `get_hints` (`generate_reports.py`; `generate_report.py` lines 217-263
is the same algorithm with the raw descriptor instead of the rendered
signature).  The JSON artifacts are modelled as structures whose fields are the
keys the code accesses; the fallible steps (descriptor parsing via `signature`/
`is_void`, pointcut matching and list indexing inside `load_diffs`) return
`Except PyErr`.
-/

/-- The `mutation.json` artifact of a hint folder. -/
structure MutationData where
  mutator : Str
  package : Str
  cls : Str
  method : Str
  description : Str
  /-- the raw test list carried by the artifact, used as fallback -/
  tests : List Str
deriving DecidableEq, Repr

/-- Opaque payload of an observation hint's `location` object. -/
abbrev Location := Str

/-- One entry of `entry-points` / `accessors`: `{class, method, desc}`. -/
structure MethodEntry where
  cls : Str
  method : Str
  desc : Str
deriving DecidableEq, Repr

/-- One hint object of `hints.json`. -/
structure HintItem where
  /-- `item['hint-type']` -/
  hintType : Str
  /-- `item['entry-points']`, read when the hint is an infection -/
  entryPoints : List MethodEntry
  /-- `item['location']`, read when the hint is an observation -/
  location : Location
  /-- `item.get('accessors')` / `'accessors' in item` -/
  accessors : Option (List MethodEntry)
  /-- `item.get('pointcut')` / `'pointcut' in item` -/
  pointcut : Option Str
deriving DecidableEq, Repr

/-- `hints.json` holds either one hint object or a list of them. -/
inductive HintData where
  | single (item : HintItem)
  | many (items : List HintItem)
deriving DecidableEq, Repr

/-- `if type(hint_data) != list: hint_data = [hint_data]`. -/
def HintData.normalize : HintData → List HintItem
  | .single item => [item]
  | .many items => items

/-- The artifacts of one hint folder: `mutation.json`, `hints.json` and the
optional `diff.json` (`none` when the file is missing). -/
structure HintFolder where
  mutation : MutationData
  hints : HintData
  diffFile : Option (List Diffs.DiffEntry)
deriving DecidableEq, Repr

/-- `method_name`: `f"{method_obj['class']}.{method_obj['method']}{signature(method_obj['desc'])}"`
(`signature` raises a `ParseError` on a malformed descriptor). -/
def methodName (e : MethodEntry) : Except PyErr Str :=
  match Descriptor.signatureFn e.desc with
  | none => .error .parseError
  | some sig => .ok (e.cls ++ str "." ++ e.method ++ sig)

/-- `mutated_method_is_accessible`:
`f'{package}.{class}.{method}{signature(description)}' in targets`. -/
def mutatedMethodIsAccessible (m : MutationData) (targets : List Str) : Except PyErr Bool :=
  match Descriptor.signatureFn m.description with
  | none => .error .parseError
  | some sig =>
    .ok (decide ((m.package ++ str "." ++ m.cls ++ str "." ++ m.method ++ sig) ∈ targets))

/-- The per-hint dictionary built by the loop body of `get_hints` (keys that
the branchy code may or may not set are `Option`). -/
structure HintOut where
  type : Str
  targets : Option (List Str)
  directAccess : Option Bool
  location : Option Location
deriving DecidableEq, Repr

/-- `if hint['type'] == 'infection': ...` — resolve the entry points and compute
`direct_access`. -/
def buildHintInfection (m : MutationData) (item : HintItem) (base : HintOut) :
    Except PyErr HintOut :=
  if item.hintType = str "infection" then
    item.entryPoints.mapM methodName >>= fun targets =>
    mutatedMethodIsAccessible m targets >>= fun da =>
    .ok { base with targets := some targets, directAccess := some da }
  else .ok base

/-- `if hint['type'] == 'observation': hint['location'] = item['location']`. -/
def buildHintObservation (item : HintItem) (h1 : HintOut) : HintOut :=
  if item.hintType = str "observation" then { h1 with location := some item.location }
  else h1

/-- `if 'accessors' in item: hint['targets'] = [...]` — overrides any targets
set by the infection branch (but not `direct_access`). -/
def buildHintAccessors (item : HintItem) (h2 : HintOut) : Except PyErr HintOut :=
  match item.accessors with
  | none => .ok h2
  | some accs =>
    accs.mapM methodName >>= fun targets => .ok { h2 with targets := some targets }

def buildHint (m : MutationData) (item : HintItem) : Except PyErr HintOut :=
  match buildHintInfection m item ⟨item.hintType, none, none, none⟩ with
  | .error e => .error e
  | .ok h1 => buildHintAccessors item (buildHintObservation item h1)

/-- Values listed in the emitted record's `mutation.tests` field:
`test_cases.get(mutation_id(**mutation_data), mutation_data['tests'])`. -/
inductive TestsVal where
  | fromIndex (tests : List TestCases.TestCaseRec)
  | rawFallback (tests : List Str)
deriving DecidableEq, Repr

structure MutationOut where
  mutator : Str
  fullClassName : Str
  method : Str
  description : Str
  signature : Str
  isVoid : Bool
  tests : TestsVal
  line : Option Nat
deriving DecidableEq, Repr

/-- The record yielded by `get_hints` for one hint. -/
structure DiagRecord where
  mutation : MutationOut
  hint : HintOut
  diff : Option Diffs.DiffRec
deriving DecidableEq, Repr

def mutationIdOf (m : MutationData) : Str :=
  Report.mutationId m.package m.cls m.method m.description m.mutator

/-- Key used in the `method_locations` lookup:
`f'{package}.{class}.{method}{description}'`. -/
def locKey (m : MutationData) : Str :=
  m.package ++ str "." ++ m.cls ++ str "." ++ m.method ++ m.description

def buildMutationOut (m : MutationData) (testCases : Report.TCDict)
    (methodLocations : List (Str × Nat)) : Except PyErr MutationOut :=
  match Descriptor.signatureFn m.description, Descriptor.isVoidFn m.description with
  | none, _ => .error .parseError
  | _, none => .error .parseError
  | some sig, some void => .ok {
    mutator := m.mutator
    fullClassName := m.package ++ str "." ++ m.cls
    method := m.method
    description := m.description
    signature := sig
    isVoid := void
    tests :=
      match pyDictGet testCases (mutationIdOf m) with
      | some ts => .fromIndex ts
      | none => .rawFallback m.tests
    line := pyDictGet methodLocations (locKey m)
  }

/-- The diff selection of `get_hints`:

    concrete_diff = None
    if 'pointcut' in item:
        concrete_diff = diffs.get(item['pointcut'], None)
    if diff_list:
        concrete_diff = diff_list[0]
-/
def selectDiff (diffs : Diffs.Dict) (diffList : List Diffs.DiffRec) (item : HintItem) :
    Option Diffs.DiffRec :=
  let c1 : Option Diffs.DiffRec :=
    match item.pointcut with
    | some pc => pyDictGet diffs pc
    | none => none
  match diffList with
  | d :: _ => some d
  | [] => c1

def getHints (folder : HintFolder) (testCases : Report.TCDict)
    (methodLocations : List (Str × Nat)) : Except PyErr (List DiagRecord) :=
  match Diffs.loadDiffs folder.diffFile with
  | .error e => .error e
  | .ok diffs =>
    folder.hints.normalize.mapM fun item =>
      match buildHint folder.mutation item with
      | .error e => .error e
      | .ok hint =>
        match buildMutationOut folder.mutation testCases methodLocations with
        | .error e => .error e
        | .ok mutOut => .ok ⟨mutOut, hint, selectDiff diffs (Diffs.dictValues diffs) item⟩

end Hints

/-! ### Helper lemmas -/

theorem mapM_ok_mem {α β : Type} (f : α → Except PyErr β) :
    ∀ (l : List α) (bs : List β), l.mapM f = .ok bs →
    ∀ a ∈ l, ∃ b ∈ bs, f a = .ok b := by
  intro l
  induction l with
  | nil => intro bs h a ha; exact absurd ha (List.not_mem_nil a)
  | cons x xs ih =>
    intro bs h a ha
    rw [List.mapM_cons] at h
    cases hx : f x with
    | error e => rw [hx] at h; exact absurd h (by simp [Bind.bind, Except.bind])
    | ok b =>
      rw [hx] at h
      cases hxs : xs.mapM f with
      | error e =>
        rw [hxs] at h
        exact absurd h (by simp [Bind.bind, Except.bind])
      | ok bs2 =>
        rw [hxs] at h
        have hbs : bs = b :: bs2 := by
          simpa [Bind.bind, Except.bind, Pure.pure, Except.pure] using h.symm
        subst hbs
        rcases List.mem_cons.mp ha with rfl | hmem
        · exact ⟨b, by simp, hx⟩
        · obtain ⟨b2, hb2, hf2⟩ := ih bs2 hxs a hmem
          exact ⟨b2, by simp [hb2], hf2⟩

theorem mapM_ok_property {α β : Type} (f : α → Except PyErr β) (P : β → Prop)
    (hf : ∀ a b, f a = .ok b → P b) :
    ∀ (l : List α) (bs : List β), l.mapM f = .ok bs → ∀ b ∈ bs, P b := by
  intro l
  induction l with
  | nil =>
    intro bs h b hb
    rw [List.mapM_nil] at h
    have hbs : bs = [] := by simpa [Pure.pure, Except.pure] using h.symm
    subst hbs
    exact absurd hb (List.not_mem_nil b)
  | cons x xs ih =>
    intro bs h b hb
    rw [List.mapM_cons] at h
    cases hx : f x with
    | error e => rw [hx] at h; exact absurd h (by simp [Bind.bind, Except.bind])
    | ok b1 =>
      rw [hx] at h
      cases hxs : xs.mapM f with
      | error e =>
        rw [hxs] at h
        exact absurd h (by simp [Bind.bind, Except.bind])
      | ok bs2 =>
        rw [hxs] at h
        have hbs : bs = b1 :: bs2 := by
          simpa [Bind.bind, Except.bind, Pure.pure, Except.pure] using h.symm
        subst hbs
        rcases List.mem_cons.mp hb with rfl | hmem
        · exact hf x b hx
        · exact ih bs2 hxs b hmem

theorem mapM_ok_property_mem {α β : Type} (f : α → Except PyErr β) (P : β → Prop) :
    ∀ (l : List α) (bs : List β), l.mapM f = .ok bs →
    (∀ a ∈ l, ∀ b, f a = .ok b → P b) → ∀ b ∈ bs, P b := by
  intro l
  induction l with
  | nil =>
    intro bs h hf b hb
    rw [List.mapM_nil] at h
    have hbs : bs = [] := by simpa [Pure.pure, Except.pure] using h.symm
    subst hbs
    exact absurd hb (List.not_mem_nil b)
  | cons x xs ih =>
    intro bs h hf b hb
    rw [List.mapM_cons] at h
    cases hx : f x with
    | error e => rw [hx] at h; exact absurd h (by simp [Bind.bind, Except.bind])
    | ok b1 =>
      rw [hx] at h
      cases hxs : xs.mapM f with
      | error e =>
        rw [hxs] at h
        exact absurd h (by simp [Bind.bind, Except.bind])
      | ok bs2 =>
        rw [hxs] at h
        have hbs : bs = b1 :: bs2 := by
          simpa [Bind.bind, Except.bind, Pure.pure, Except.pure] using h.symm
        subst hbs
        rcases List.mem_cons.mp hb with rfl | hmem
        · exact hf x (by simp) b hx
        · exact ih bs2 hxs (fun a ha => hf a (by simp [ha])) b hmem

theorem mapM_ok_of_forall {α β : Type} (f : α → Except PyErr β) (P : β → Prop) :
    ∀ l : List α, (∀ a ∈ l, ∃ b, f a = .ok b ∧ P b) →
    ∃ bs, l.mapM f = .ok bs ∧ ∀ b ∈ bs, P b := by
  intro l
  induction l with
  | nil => intro h; exact ⟨[], rfl, by simp⟩
  | cons x xs ih =>
    intro h
    obtain ⟨b, hb, hPb⟩ := h x (by simp)
    obtain ⟨bs, hbs, hPbs⟩ := ih (fun a ha => h a (by simp [ha]))
    refine ⟨b :: bs, ?_, ?_⟩
    · rw [List.mapM_cons, hb, hbs]
      simp [Bind.bind, Except.bind, Pure.pure, Except.pure]
    · intro b2 hb2
      rcases List.mem_cons.mp hb2 with rfl | hmem
      · exact hPb
      · exact hPbs b2 hmem

theorem pyDictKeys_insert {α : Type} (k : Str) (v : α) (d : List (Str × α)) (p : Str) :
    p ∈ pyDictKeys (pyDictInsert k v d) ↔ p ∈ pyDictKeys d ∨ p = k := by
  rw [pyDictInsert]
  split
  · next hany =>
    have hkeys : pyDictKeys (d.map (fun q => if q.1 = k then (k, v) else q)) = pyDictKeys d := by
      rw [pyDictKeys, pyDictKeys, List.map_map]
      apply List.map_congr_left
      intro q hq
      by_cases hqk : q.1 = k
      · simp [hqk]
      · simp [hqk]
    rw [hkeys]
    have hk : k ∈ pyDictKeys d := by
      obtain ⟨q, hq, hqk⟩ := List.any_eq_true.mp hany
      rw [pyDictKeys]
      exact List.mem_map.mpr ⟨q, hq, by simpa using hqk⟩
    constructor
    · exact Or.inl
    · rintro (h | rfl)
      · exact h
      · exact hk
  · rw [pyDictKeys, List.map_append]
    constructor
    · intro h
      rcases List.mem_append.mp h with h1 | h1
      · exact Or.inl h1
      · right
        simpa using h1
    · rintro (h1 | rfl)
      · exact List.mem_append.mpr (Or.inl h1)
      · exact List.mem_append.mpr (Or.inr (by simp))

/-! ### Claim theorems -/

/-- C6: the pointcut parser maps `"Foo|bar|0|3|#result"` to class `Foo`,
method `bar`, description `0`, invocation `3` with the `result` target set;
maps `"Foo|bar|!"` to the exception marker with none of the description /
invocation / target / expression branch fields set; and maps `"Foo|bar|2|field"`
to expression `2` with field `"field"` captured simultaneously. -/
theorem pointcut_parser_examples :
    Pointcut.pmatch (str "Foo|bar|0|3|#result") =
      some ({ Pointcut.emptyGroups with
                cls := some (str "Foo"), method := some (str "bar"),
                description := some (str "0"), invocation := some (str "3"),
                result := some (str "result") }, [])
    ∧ Pointcut.pmatch (str "Foo|bar|!") =
      some ({ Pointcut.emptyGroups with
                cls := some (str "Foo"), method := some (str "bar"),
                exception := some (str "!") }, [])
    ∧ Pointcut.pmatch (str "Foo|bar|2|field") =
      some ({ Pointcut.emptyGroups with
                cls := some (str "Foo"), method := some (str "bar"),
                expression := some (str "2"), field := some (str "field") }, []) :=
  ⟨by decide, by decide, by decide⟩

/-- C5: the descriptor parser maps `"()V"` to an empty parameter list with
void true, maps `"(I[Ljava/lang/String;)Z"` to the parameter list
`["int", "java.lang.String[]"]` with return type `"boolean"` and void false
(in v2, `parse_signature` renders the same parameter list and `is_void` agrees),
and parsing any descriptor built from the primitive/array/class grammar
succeeds with the rendered types (being a function of the input, parsing is
deterministic; the final universally quantified conjunct is totality over the
grammar). -/
theorem descriptor_parser_spec :
    (Descriptor.parseDescription (str "()V") = some ([], str "void")
      ∧ Descriptor.isVoidFn (str "()V") = some true)
    ∧ (Descriptor.parseDescription (str "(I[Ljava/lang/String;)Z")
        = some ([str "int", str "java.lang.String[]"], str "boolean")
      ∧ Descriptor.isVoidFn (str "(I[Ljava/lang/String;)Z") = some false
      ∧ Descriptor.signatureFn (str "(I[Ljava/lang/String;)Z")
        = some (str "(int,java.lang.String[])"))
    ∧ (Descriptor.parseSignatureV2 (str "()V") = .ok (str "()")
      ∧ Descriptor.isVoidV2 (str "()V") = true
      ∧ Descriptor.parseSignatureV2 (str "(I[Ljava/lang/String;)Z")
        = .ok (str "(int, java.lang.String[])")
      ∧ Descriptor.isVoidV2 (str "(I[Ljava/lang/String;)Z") = false)
    ∧ ∀ (params : List Descriptor.JType) (ret : Descriptor.JRet),
        (∀ t ∈ params, t.Valid) → ret.Valid →
        Descriptor.parseDescription (Descriptor.renderDescriptor params ret)
          = some (params.map Descriptor.JType.display, ret.display) :=
  ⟨⟨by decide, by decide⟩,
   ⟨by decide, by decide, by decide⟩,
   ⟨rfl, by decide, rfl, by decide⟩,
   Descriptor.parseDescription_render⟩

/-- Witness for C5's universally quantified totality conjunct, at the descriptor
`"([Ljava/lang/String;I)Z"` (parameters `String[]`, `int`; return `boolean`). -/
theorem descriptor_parser_spec_witness :
    Descriptor.parseDescription (Descriptor.renderDescriptor
        [.arr 1 (.cls [str "java", str "lang", str "String"]), .base (.prim .pI)]
        (.typ (.base (.prim .pZ))))
      = some ([str "java.lang.String[]", str "int"], str "boolean") := by
  have h := descriptor_parser_spec.2.2.2
    [.arr 1 (.cls [str "java", str "lang", str "String"]), .base (.prim .pI)]
    (.typ (.base (.prim .pZ)))
    (by
      intro t ht
      rcases List.mem_cons.mp ht with rfl | ht2
      · exact ⟨le_refl 1, by simp, by intro seg hseg; fin_cases hseg <;> exact ⟨by decide, by decide⟩⟩
      · rcases List.mem_cons.mp ht2 with rfl | ht3
        · exact trivial
        · exact absurd ht3 (List.not_mem_nil t))
    trivial
  simpa using h

/-- C4 (code bug): `load_test_cases` parsing is not raise-free.  In
`generate_reports.py` an identifier that matches neither test pattern does fall
back to a bare-class record, but an identifier matched by `TEST_CLASS_PATTERN`
(such as `"Foo.Foo"`) reaches `match.group("method")` on a match object whose
pattern has no group named `method`, raising `IndexError`; in
`generate_report.py` any identifier the `re.search` misses (such as `"x"`)
raises `AttributeError` on `match.group("test")`. -/
theorem load_test_cases_parsing_raises :
    TestCases.processCase (str "Foo.Foo") = .error .noSuchGroup
    ∧ TestCases.processCase (str "x") = .ok ⟨str "x", none⟩
    ∧ TestCases.processCaseV2 (str "x") = .error .attrNone :=
  ⟨rfl, rfl, rfl⟩

/-- C10: `load_diffs` reads `entry['unexpected'][0]` unconditionally for every
entry that passes the `len(entry['expected']) == 1` filter: if every kept
entry's pointcut matches (ruling out the earlier `AttributeError`) and some
entry has exactly one expected value but an empty `unexpected` list, loading
fails with the out-of-bounds `IndexError` instead of skipping the entry. -/
theorem load_diffs_unexpected_oob (entries : List Diffs.DiffEntry)
    (hmatch : ∀ e ∈ entries, e.expected.length = 1 → (Pointcut.pmatch e.pointcut).isSome)
    (hbad : ∃ e ∈ entries, e.expected.length = 1 ∧ e.unexpected = []) :
    Diffs.loadDiffs (some entries) = .error .indexOOB := by
  rw [Diffs.loadDiffs]
  suffices h : ∀ acc, Diffs.buildDict entries acc = .error .indexOOB from h []
  induction entries with
  | nil =>
    obtain ⟨e, he, -⟩ := hbad
    exact absurd he (List.not_mem_nil e)
  | cons e rest ih =>
    intro acc
    rw [Diffs.buildDict]
    by_cases hlen : e.expected.length = 1
    · rw [if_pos hlen]
      have hm := hmatch e (by simp) hlen
      obtain ⟨⟨g, r⟩, hg⟩ := Option.isSome_iff_exists.mp hm
      rw [hg]
      cases hu : e.unexpected with
      | nil => rfl
      | cons v vs =>
        obtain ⟨e2, he2, hlen2, hu2⟩ := hbad
        rcases List.mem_cons.mp he2 with rfl | hmem
        · rw [hu] at hu2; exact absurd hu2 (by simp)
        · exact ih (fun e3 he3 hl3 => hmatch e3 (by simp [he3]) hl3) ⟨e2, hmem, hlen2, hu2⟩ _
    · rw [if_neg hlen]
      obtain ⟨e2, he2, hlen2, hu2⟩ := hbad
      rcases List.mem_cons.mp he2 with rfl | hmem
      · exact absurd hlen2 hlen
      · exact ih (fun e3 he3 hl3 => hmatch e3 (by simp [he3]) hl3) ⟨e2, hmem, hlen2, hu2⟩ acc

/-- Witness for C10 at a one-entry diff list whose entry has one expected value
and no unexpected value. -/
theorem load_diffs_unexpected_oob_witness :
    Diffs.loadDiffs (some [⟨str "Foo|bar|!", [str "v"], []⟩]) = .error .indexOOB :=
  load_diffs_unexpected_oob [⟨str "Foo|bar|!", [str "v"], []⟩]
    (by intro e he hl; rcases List.mem_cons.mp he with rfl | h2; exacts [by decide, absurd h2 (List.not_mem_nil e)])
    ⟨⟨str "Foo|bar|!", [str "v"], []⟩, by simp, by decide, rfl⟩

theorem buildDict_keys (entries : List Diffs.DiffEntry) :
    ∀ acc d, Diffs.buildDict entries acc = .ok d →
    ∀ p : Str, p ∈ pyDictKeys d ↔
      p ∈ pyDictKeys acc ∨ ∃ e ∈ entries, e.expected.length = 1 ∧ e.pointcut = p := by
  induction entries with
  | nil =>
    intro acc d h p
    rw [Diffs.buildDict] at h
    have hd : acc = d := by simpa using h
    subst hd
    simp
  | cons e rest ih =>
    intro acc d h p
    rw [Diffs.buildDict] at h
    by_cases hlen : e.expected.length = 1
    · rw [if_pos hlen] at h
      cases hm : Pointcut.pmatch e.pointcut with
      | none => rw [hm] at h; exact absurd h (by simp)
      | some gr =>
        rw [hm] at h
        obtain ⟨g, r⟩ := gr
        cases hu : e.unexpected with
        | nil => rw [hu] at h; exact absurd h (by simp)
        | cons v vs =>
          rw [hu] at h
          rw [ih _ d h p, pyDictKeys_insert]
          constructor
          · rintro ((h1 | rfl) | ⟨e2, he2, hl2, hp2⟩)
            · exact Or.inl h1
            · exact Or.inr ⟨e, by simp, hlen, rfl⟩
            · exact Or.inr ⟨e2, by simp [he2], hl2, hp2⟩
          · rintro (h1 | ⟨e2, he2, hl2, hp2⟩)
            · exact Or.inl (Or.inl h1)
            · rcases List.mem_cons.mp he2 with rfl | hmem
              · exact Or.inl (Or.inr hp2.symm)
              · exact Or.inr ⟨e2, hmem, hl2, hp2⟩
    · rw [if_neg hlen] at h
      rw [ih _ d h p]
      constructor
      · rintro (h1 | ⟨e2, he2, hl2, hp2⟩)
        · exact Or.inl h1
        · exact Or.inr ⟨e2, by simp [he2], hl2, hp2⟩
      · rintro (h1 | ⟨e2, he2, hl2, hp2⟩)
        · exact Or.inl h1
        · rcases List.mem_cons.mp he2 with rfl | hmem
          · exact absurd hl2 hlen
          · exact Or.inr ⟨e2, hmem, hl2, hp2⟩

/-- C7: `load_diffs` keeps exactly the entries whose `expected` list has one
element: a pointcut string is a key of the resulting map exactly when some diff
entry carries it with a single expected value (entries with zero or several
expected values contribute nothing), and each kept entry is keyed by its exact
raw pointcut string. -/
theorem load_diffs_keeps_single_expected (entries : List Diffs.DiffEntry) (d : Diffs.Dict)
    (h : Diffs.loadDiffs (some entries) = .ok d) (p : Str) :
    p ∈ pyDictKeys d ↔ ∃ e ∈ entries, e.expected.length = 1 ∧ e.pointcut = p := by
  rw [Diffs.loadDiffs] at h
  have hiff := buildDict_keys entries [] d h p
  have h0 : pyDictKeys ([] : Diffs.Dict) = [] := rfl
  rw [hiff, h0]
  simp

def entriesC7 : List Diffs.DiffEntry :=
  [⟨str "A|b|2", [str "x", str "y"], [str "u"]⟩,
   ⟨str "Foo|bar|!", [str "v"], [str "w"]⟩]

def diffsC7 : Diffs.Dict :=
  match Diffs.loadDiffs (some entriesC7) with
  | .ok d => d
  | .error _ => []

/-- Witness for C7: in a two-entry diff list, the entry with two expected
values is excluded and the entry with one expected value is keyed by its raw
pointcut. -/
theorem load_diffs_keeps_single_expected_witness :
    (str "Foo|bar|!") ∈ pyDictKeys diffsC7 ∧ ¬ (str "A|b|2") ∈ pyDictKeys diffsC7 := by
  constructor
  · exact (load_diffs_keeps_single_expected entriesC7 diffsC7 rfl (str "Foo|bar|!")).mpr
      ⟨⟨str "Foo|bar|!", [str "v"], [str "w"]⟩, by simp [entriesC7], by decide, rfl⟩
  · intro hmem
    obtain ⟨e, he, hlen, hp⟩ :=
      (load_diffs_keeps_single_expected entriesC7 diffsC7 rfl (str "A|b|2")).mp hmem
    rw [entriesC7] at he
    rcases List.mem_cons.mp he with rfl | he2
    · exact absurd hlen (by decide)
    · rcases List.mem_cons.mp he2 with rfl | he3
      · exact absurd hp (by decide)
      · exact absurd he3 (List.not_mem_nil e)

theorem runThen_suffix {p : Char → Bool} {sep : Char} {s run rest : Str}
    (h : runThen p sep s = some (run, rest)) : rest.IsSuffix s := by
  rw [runThen] at h
  split at h
  · exact absurd h (by simp)
  · split at h
    · next c rest' heq =>
      split at h
      · obtain ⟨-, h2⟩ : List.takeWhile p s = run ∧ rest' = rest := by simpa using h
        subst h2
        have hcr : (c :: rest').IsSuffix s := heq ▸ List.dropWhile_suffix p
        exact (List.suffix_cons c rest').trans hcr
      · exact absurd h (by simp)
    · exact absurd h (by simp)

theorem matchTarget_suffix {s r : Str} {t : Pointcut.Tgt}
    (h : Pointcut.matchTarget s = some (t, r)) : r.IsSuffix s := by
  rw [Pointcut.matchTarget] at h
  split at h
  · obtain ⟨-, h2⟩ : Pointcut.Tgt.result = t ∧ s.drop 6 = r := by simpa using h
    exact h2 ▸ List.drop_suffix 6 s
  · split at h
    · obtain ⟨-, h2⟩ : Pointcut.Tgt.that = t ∧ s.drop 4 = r := by simpa using h
      exact h2 ▸ List.drop_suffix 4 s
    · split at h
      · exact absurd h (by simp)
      · obtain ⟨-, h2⟩ : Pointcut.Tgt.arg (s.takeWhile isDigit) = t ∧ s.dropWhile isDigit = r := by
          simpa using h
        exact h2 ▸ List.dropWhile_suffix isDigit

theorem matchAlt1_suffix {s : Str} {d i : Str} {t : Pointcut.Tgt} {r : Str}
    (h : Pointcut.matchAlt1 s = some (d, i, t, r)) : r.IsSuffix s := by
  rw [Pointcut.matchAlt1] at h
  split at h
  · exact absurd h (by simp)
  · next d1 s1 h1 =>
    split at h
    · exact absurd h (by simp)
    · next i1 s2 h2 =>
      split at h
      · exact absurd h (by simp)
      · next c s3 =>
        split at h
        · next hc =>
          split at h
          · exact absurd h (by simp)
          · next t1 s4 h3 =>
            obtain ⟨-, -, -, h7⟩ : d1 = d ∧ i1 = i ∧ t1 = t ∧ s4 = r := by simpa using h
            subst h7
            exact (((matchTarget_suffix h3).trans (List.suffix_cons c s3)).trans
              (runThen_suffix h2)).trans (runThen_suffix h1)
        · exact absurd h (by simp)

theorem matchAlt2_suffix {s r : Str} {b : Pointcut.Branch2}
    (h : Pointcut.matchAlt2 s = some (b, r)) : r.IsSuffix s := by
  rw [Pointcut.matchAlt2.eq_def] at h
  split at h
  · obtain ⟨-, h2⟩ : Pointcut.Branch2.expr (s.takeWhile isDigit) = b ∧ s.dropWhile isDigit = r := by
      simpa using h
    exact h2 ▸ List.dropWhile_suffix isDigit
  · cases s with
    | nil => exact absurd h (by simp)
    | cons c r2 =>
      have h3 : (if c = '!' then some (Pointcut.Branch2.exc, r2) else none) = some (b, r) := h
      by_cases hc : c = '!'
      · rw [if_pos hc] at h3
        obtain ⟨-, h2⟩ : Pointcut.Branch2.exc = b ∧ r2 = r := by simpa using h3
        exact h2 ▸ List.suffix_cons c r2
      · rw [if_neg hc] at h3
        exact absurd h3 (by simp)

theorem optField_suffix (s : Str) : (Pointcut.optField s).2.IsSuffix s := by
  rw [Pointcut.optField.eq_def]
  split
  · next c r =>
    split
    · split
      · exact List.suffix_refl _
      · exact (List.dropWhile_suffix _).trans (List.suffix_cons c r)
    · exact List.suffix_refl _
  · exact List.suffix_refl _

theorem optSizeLen_suffix (s : Str) : (Pointcut.optSizeLen s).2.2.IsSuffix s := by
  rw [Pointcut.optSizeLen.eq_def]
  split
  · exact List.suffix_refl _
  · exact List.suffix_refl _
  · next c1 c2 r =>
    split
    · split
      · exact (List.drop_suffix 4 r).trans
          ((List.suffix_cons c2 r).trans (List.suffix_cons c1 (c2 :: r)))
      · split
        · exact (List.drop_suffix 6 r).trans
            ((List.suffix_cons c2 r).trans (List.suffix_cons c1 (c2 :: r)))
        · exact List.suffix_refl _
    · exact List.suffix_refl _

theorem matchBranch_suffix {s2 : Str} {core : Pointcut.Groups} {s3 : Str}
    (h : Pointcut.matchBranch s2 = some (core, s3)) : s3.IsSuffix s2 := by
  rw [Pointcut.matchBranch] at h
  cases halt1 : Pointcut.matchAlt1 s2 with
  | some v =>
    rw [halt1] at h
    obtain ⟨vd, vi, vt, vr⟩ := v
    obtain ⟨-, h5⟩ : _ ∧ vr = s3 := by simpa using h
    exact h5 ▸ matchAlt1_suffix halt1
  | none =>
    rw [halt1] at h
    cases halt2 : Pointcut.matchAlt2 s2 with
    | some v =>
      rw [halt2] at h
      obtain ⟨vb, vr⟩ := v
      obtain ⟨-, h5⟩ : _ ∧ vr = s3 := by simpa using h
      exact h5 ▸ matchAlt2_suffix halt2
    | none =>
      rw [halt2] at h
      exact absurd h (by simp)

theorem pmatch_suffix {s : Str} {g : Pointcut.Groups} {r : Str}
    (h : Pointcut.pmatch s = some (g, r)) : r.IsSuffix s := by
  rw [Pointcut.pmatch] at h
  split at h
  · exact absurd h (by simp)
  · next cls s1 h1 =>
    split at h
    · exact absurd h (by simp)
    · next mth s2 h2 =>
      split at h
      · exact absurd h (by simp)
      · next core s3 h3 =>
        obtain ⟨-, h5⟩ : _ ∧ (Pointcut.optSizeLen (Pointcut.optField s3).2).2.2 = r := by
          simpa using h
        exact (h5 ▸ (optSizeLen_suffix _).trans (optField_suffix s3)).trans
          ((matchBranch_suffix h3).trans ((runThen_suffix h2).trans (runThen_suffix h1)))

/-- Counterexample for C3: the pointcut `"Foo|bar|!x"` has non-conforming
trailing text yet `POINTCUT_PATTERN.match` accepts it, consuming only the
prefix `"Foo|bar|!"` and leaving `"x"` unmatched — matching is not anchored at
the right end. -/
theorem pointcut_anchoring_counterexample :
    Pointcut.pmatch (str "Foo|bar|!x") =
      some ({ Pointcut.emptyGroups with
                cls := some (str "Foo"), method := some (str "bar"),
                exception := some (str "!") }, ['x'])
    ∧ (['x'] : Str) ≠ [] :=
  ⟨by decide, by decide⟩

/-- C3 (amended): pointcut matching is anchored at the start only.  A match,
when it exists, consumes a prefix of the input (the remainder is a suffix,
possibly nonempty, of non-conforming trailing text that is silently ignored),
and a string with no conforming prefix is a hard failure: `load_diffs` raises
`AttributeError` on any kept entry whose pointcut does not match. -/
theorem pointcut_match_start_anchored (s : Str) :
    (∀ g r, Pointcut.pmatch s = some (g, r) → r.IsSuffix s)
    ∧ (Pointcut.pmatch s = none →
        ∀ e : Diffs.DiffEntry, e.pointcut = s → e.expected.length = 1 →
        Diffs.loadDiffs (some [e]) = .error .attrNone) := by
  constructor
  · intro g r h
    exact pmatch_suffix h
  · intro hnone e hp hlen
    rw [Diffs.loadDiffs, Diffs.buildDict, if_pos hlen, hp, hnone]

/-- Witness for C3's amended theorem: the accepted prefix case at
`"Foo|bar|!x"` and the hard-failure case at the non-conforming `"Foo"`. -/
theorem pointcut_match_start_anchored_witness :
    (['x'] : Str).IsSuffix (str "Foo|bar|!x")
    ∧ Diffs.loadDiffs (some [⟨str "Foo", [str "v"], [str "w"]⟩]) = .error .attrNone :=
  ⟨(pointcut_match_start_anchored (str "Foo|bar|!x")).1
      ({ Pointcut.emptyGroups with
          cls := some (str "Foo"), method := some (str "bar"),
          exception := some (str "!") }) ['x'] (by decide),
   (pointcut_match_start_anchored (str "Foo")).2 (by decide)
      ⟨str "Foo", [str "v"], [str "w"]⟩ rfl (by decide)⟩

theorem loadTestCasesGo_keys (ms : List Report.ReportMutation) :
    ∀ acc tc, Report.loadTestCasesGo ms acc = .ok tc →
    ∀ id, id ∈ pyDictKeys tc ↔
      id ∈ pyDictKeys acc ∨
      ∃ m ∈ ms, m.status = str "SURVIVED" ∧ Report.ReportMutation.id m = id := by
  induction ms with
  | nil =>
    intro acc tc h id
    rw [Report.loadTestCasesGo] at h
    have hd : acc = tc := by simpa using h
    subst hd
    simp
  | cons m rest ih =>
    intro acc tc h id
    rw [Report.loadTestCasesGo] at h
    by_cases hst : m.status = str "SURVIVED"
    · rw [if_neg (by simpa using hst)] at h
      cases hm : m.testsOrdered.mapM TestCases.processCase with
      | error e => rw [hm] at h; exact absurd h (by simp)
      | ok newTests =>
        rw [hm] at h
        rw [ih _ tc h id, pyDictKeys_insert]
        constructor
        · rintro ((h1 | rfl) | ⟨m2, hm2, hs2, hid2⟩)
          · exact Or.inl h1
          · exact Or.inr ⟨m, by simp, hst, rfl⟩
          · exact Or.inr ⟨m2, by simp [hm2], hs2, hid2⟩
        · rintro (h1 | ⟨m2, hm2, hs2, hid2⟩)
          · exact Or.inl (Or.inl h1)
          · rcases List.mem_cons.mp hm2 with rfl | hmem
            · exact Or.inl (Or.inr hid2.symm)
            · exact Or.inr ⟨m2, hmem, hs2, hid2⟩
    · rw [if_pos (by simpa using hst)] at h
      rw [ih _ tc h id]
      constructor
      · rintro (h1 | ⟨m2, hm2, hs2, hid2⟩)
        · exact Or.inl h1
        · exact Or.inr ⟨m2, by simp [hm2], hs2, hid2⟩
      · rintro (h1 | ⟨m2, hm2, hs2, hid2⟩)
        · exact Or.inl h1
        · rcases List.mem_cons.mp hm2 with rfl | hmem
          · exact absurd hs2 hst
          · exact Or.inr ⟨m2, hmem, hs2, hid2⟩

theorem loadTestCasesV2Go_keys (ms : List Report.ReportMutation) :
    ∀ acc tc, Report.loadTestCasesV2Go ms acc = .ok tc →
    ∀ id, id ∈ pyDictKeys tc ↔
      id ∈ pyDictKeys acc ∨
      ∃ m ∈ ms, m.status = str "SURVIVED" ∧ Report.ReportMutation.id m = id := by
  induction ms with
  | nil =>
    intro acc tc h id
    rw [Report.loadTestCasesV2Go] at h
    have hd : acc = tc := by simpa using h
    subst hd
    simp
  | cons m rest ih =>
    intro acc tc h id
    rw [Report.loadTestCasesV2Go] at h
    by_cases hst : m.status = str "SURVIVED"
    · rw [if_neg (by simpa using hst)] at h
      cases hm : m.testsOrdered.mapM TestCases.processCaseV2 with
      | error e => rw [hm] at h; exact absurd h (by simp)
      | ok tests =>
        rw [hm] at h
        rw [ih _ tc h id, pyDictKeys_insert]
        constructor
        · rintro ((h1 | rfl) | ⟨m2, hm2, hs2, hid2⟩)
          · exact Or.inl h1
          · exact Or.inr ⟨m, by simp, hst, rfl⟩
          · exact Or.inr ⟨m2, by simp [hm2], hs2, hid2⟩
        · rintro (h1 | ⟨m2, hm2, hs2, hid2⟩)
          · exact Or.inl (Or.inl h1)
          · rcases List.mem_cons.mp hm2 with rfl | hmem
            · exact Or.inl (Or.inr hid2.symm)
            · exact Or.inr ⟨m2, hmem, hs2, hid2⟩
    · rw [if_pos (by simpa using hst)] at h
      rw [ih _ tc h id]
      constructor
      · rintro (h1 | ⟨m2, hm2, hs2, hid2⟩)
        · exact Or.inl h1
        · exact Or.inr ⟨m2, by simp [hm2], hs2, hid2⟩
      · rintro (h1 | ⟨m2, hm2, hs2, hid2⟩)
        · exact Or.inl h1
        · rcases List.mem_cons.mp hm2 with rfl | hmem
          · exact absurd hs2 hst
          · exact Or.inr ⟨m2, hmem, hs2, hid2⟩

/-- C2 (amended): in both variants of `load_test_cases`, a mutation's composite
id is a key of the resulting index exactly when the report carries a mutation
with that id whose `status` equals the exact, case-sensitive uppercase string
`"SURVIVED"`; any other status (including lowercase `"survived"`) is excluded. -/
theorem load_test_cases_survived_filter (report : Report.MutationReport) (id : Str) :
    (∀ tc, Report.loadTestCases report = .ok tc →
      (id ∈ pyDictKeys tc ↔
        ∃ m ∈ report.mutations, m.status = str "SURVIVED" ∧ Report.ReportMutation.id m = id))
    ∧ (∀ tc2, Report.loadTestCasesV2 report = .ok tc2 →
      (id ∈ pyDictKeys tc2 ↔
        ∃ m ∈ report.mutations, m.status = str "SURVIVED" ∧ Report.ReportMutation.id m = id)) := by
  constructor
  · intro tc h
    rw [Report.loadTestCases] at h
    have hiff := loadTestCasesGo_keys report.mutations [] tc h id
    have h0 : pyDictKeys ([] : Report.TCDict) = [] := rfl
    rw [hiff, h0]
    simp
  · intro tc2 h
    rw [Report.loadTestCasesV2] at h
    have hiff := loadTestCasesV2Go_keys report.mutations [] tc2 h id
    have h0 : pyDictKeys ([] : Report.TCDictV2) = [] := rfl
    rw [hiff, h0]
    simp

def reportC2 : Report.MutationReport :=
  ⟨[⟨str "mutV", str "SURVIVED", ⟨str "com", str "Foo", str "bar", str "()V"⟩, []⟩]⟩

/-- Counterexample for C2: a report whose only mutation has status
`"SURVIVED"` — not equal to the lowercase `"survived"` the claim demands —
still lands in the Mutation Index, so "kept iff status equals the exact string
`\"survived\"`" is false on the code. -/
theorem load_test_cases_survived_counterexample :
    Report.loadTestCases reportC2 = .ok [(str "com.Foo.bar()VmutV", [])]
    ∧ reportC2.mutations.map (fun m => m.status) = [str "SURVIVED"]
    ∧ (str "SURVIVED") ≠ (str "survived")
    ∧ pyDictKeys [((str "com.Foo.bar()VmutV" : Str), ([] : List TestCases.TestCaseRec))]
        = [str "com.Foo.bar()VmutV"] :=
  ⟨by decide, by decide, by decide, by decide⟩

/-- Witness for C2's amended theorem at the concrete report above. -/
theorem load_test_cases_survived_filter_witness :
    (str "com.Foo.bar()VmutV") ∈ pyDictKeys [((str "com.Foo.bar()VmutV" : Str),
      ([] : List TestCases.TestCaseRec))] :=
  ((load_test_cases_survived_filter reportC2 (str "com.Foo.bar()VmutV")).1
      [(str "com.Foo.bar()VmutV", [])] (by decide)).mpr
    ⟨⟨str "mutV", str "SURVIVED", ⟨str "com", str "Foo", str "bar", str "()V"⟩, []⟩,
     by simp [reportC2], by decide, by decide⟩

/-- C1: in diagnostic assembly, whenever the Diff Index is non-empty, every
emitted record's diff is the first diff in the index's insertion order — the
explicit-pointcut lookup that may have run just before is unconditionally
overwritten, so the explicit pointcut never determines the emitted diff when
any diff exists. -/
theorem first_diff_overrides_explicit_pointcut
    (folder : Hints.HintFolder) (tc : Report.TCDict) (ml : List (Str × Nat))
    (d : Diffs.Dict) (rs : List Hints.DiagRecord)
    (hload : Diffs.loadDiffs folder.diffFile = .ok d)
    (hne : Diffs.dictValues d ≠ [])
    (hok : Hints.getHints folder tc ml = .ok rs) :
    ∀ r ∈ rs, r.diff = (Diffs.dictValues d).head? := by
  rw [Hints.getHints, hload] at hok
  refine mapM_ok_property _ (fun r => r.diff = (Diffs.dictValues d).head?) ?_ _ rs hok
  intro item r hitem
  cases hbh : Hints.buildHint folder.mutation item with
  | error e => rw [hbh] at hitem; exact absurd hitem (by simp)
  | ok hint =>
    rw [hbh] at hitem
    cases hbm : Hints.buildMutationOut folder.mutation tc ml with
    | error e => rw [hbm] at hitem; exact absurd hitem (by simp)
    | ok mutOut =>
      rw [hbm] at hitem
      have hr : (⟨mutOut, hint, Hints.selectDiff d (Diffs.dictValues d) item⟩ :
          Hints.DiagRecord) = r := by simpa using hitem
      subst hr
      show Hints.selectDiff d (Diffs.dictValues d) item = (Diffs.dictValues d).head?
      rw [Hints.selectDiff.eq_def]
      cases hv : Diffs.dictValues d with
      | nil => exact absurd hv hne
      | cons v vs => rfl

def folderC1 : Hints.HintFolder :=
  ⟨⟨str "mut", str "com", str "Foo", str "bar", str "()V", []⟩,
   .single ⟨str "execution", [], str "", none, some (str "Foo|bar|2")⟩,
   some [⟨str "Foo|bar|!", [str "a"], [str "b"]⟩,
         ⟨str "Foo|bar|2", [str "c"], [str "d"]⟩]⟩

def dC1 : Diffs.Dict :=
  match Diffs.loadDiffs folderC1.diffFile with
  | .ok d => d
  | .error _ => []

def rsC1 : List Hints.DiagRecord :=
  match Hints.getHints folderC1 [] [] with
  | .ok rs => rs
  | .error _ => []

def dummyRecC1 : Hints.DiagRecord :=
  ⟨⟨[], [], [], [], [], false, .rawFallback [], none⟩, ⟨[], none, none, none⟩, none⟩

/-- Witness for C1: a folder whose single hint explicitly addresses the second
diff (`"Foo|bar|2"`), yet the emitted record carries the first diff of the
index. -/
theorem first_diff_overrides_explicit_pointcut_witness :
    (rsC1.headD dummyRecC1).diff = (Diffs.dictValues dC1).head? :=
  first_diff_overrides_explicit_pointcut folderC1 [] [] dC1 rsC1 rfl (by decide) rfl
    (rsC1.headD dummyRecC1) (by decide)

theorem buildHintObservation_directAccess (item : Hints.HintItem) (h1 : Hints.HintOut) :
    (Hints.buildHintObservation item h1).directAccess = h1.directAccess := by
  rw [Hints.buildHintObservation]
  split <;> rfl

theorem buildHintAccessors_directAccess (item : Hints.HintItem) (h2 h3 : Hints.HintOut)
    (h : Hints.buildHintAccessors item h2 = .ok h3) :
    h3.directAccess = h2.directAccess := by
  rw [Hints.buildHintAccessors.eq_def] at h
  split at h
  · have h4 : h2 = h3 := by simpa using h
    subst h4
    rfl
  · next accs hac =>
    cases hmm : accs.mapM Hints.methodName with
    | error e => rw [hmm, error_bind] at h; exact absurd h (by simp)
    | ok ts =>
      rw [hmm, ok_bind] at h
      have h4 := Except.ok.inj h
      rw [← h4]

theorem buildHintInfection_direct_access (m : Hints.MutationData) (item : Hints.HintItem)
    (base h1 : Hints.HintOut) (entry : Hints.MethodEntry)
    (htype : item.hintType = str "infection")
    (hentry : entry ∈ item.entryPoints)
    (hcls : entry.cls = m.package ++ str "." ++ m.cls)
    (hmeth : entry.method = m.method)
    (hdesc : entry.desc = m.description)
    (h : Hints.buildHintInfection m item base = .ok h1) :
    h1.directAccess = some true := by
  rw [Hints.buildHintInfection, if_pos htype] at h
  cases htg : item.entryPoints.mapM Hints.methodName with
  | error e => rw [htg, error_bind] at h; exact absurd h (by simp)
  | ok targets =>
    rw [htg, ok_bind] at h
    obtain ⟨fqn, hfqn, hmn⟩ := mapM_ok_mem Hints.methodName item.entryPoints targets htg
      entry hentry
    rw [Hints.methodName.eq_def] at hmn
    split at hmn
    · exact absurd hmn (by simp)
    · next sig hsig =>
      have hfqn2 : entry.cls ++ str "." ++ entry.method ++ sig = fqn := by simpa using hmn
      rw [hdesc] at hsig
      have hmma : Hints.mutatedMethodIsAccessible m targets
          = .ok (decide ((m.package ++ str "." ++ m.cls ++ str "." ++ m.method ++ sig)
              ∈ targets)) := by
        rw [Hints.mutatedMethodIsAccessible.eq_def, hsig]
      rw [hmma, ok_bind] at h
      have h1eq := Except.ok.inj h
      have heq : m.package ++ str "." ++ m.cls ++ str "." ++ m.method ++ sig = fqn := by
        rw [← hfqn2, hcls, hmeth]
      rw [← h1eq]
      show some (decide ((m.package ++ str "." ++ m.cls ++ str "." ++ m.method ++ sig)
          ∈ targets)) = some true
      rw [heq]
      exact congrArg some (decide_eq_true hfqn)

/-- C8: for a hint folder whose single hint is an infection hint listing an
entry point whose (fully qualified) class, method name and descriptor equal
those of the mutated method, every emitted record has `direct_access = true`:
the mutated method's resolved fully qualified name is a member of the resolved
entry-point target list. -/
theorem infection_entry_point_direct_access
    (folder : Hints.HintFolder) (tc : Report.TCDict) (ml : List (Str × Nat))
    (rs : List Hints.DiagRecord) (item : Hints.HintItem) (entry : Hints.MethodEntry)
    (hsingle : folder.hints.normalize = [item])
    (htype : item.hintType = str "infection")
    (hentry : entry ∈ item.entryPoints)
    (hcls : entry.cls = folder.mutation.package ++ str "." ++ folder.mutation.cls)
    (hmeth : entry.method = folder.mutation.method)
    (hdesc : entry.desc = folder.mutation.description)
    (hok : Hints.getHints folder tc ml = .ok rs) :
    ∀ r ∈ rs, r.hint.directAccess = some true := by
  rw [Hints.getHints] at hok
  cases hld : Diffs.loadDiffs folder.diffFile with
  | error e => rw [hld] at hok; exact absurd hok (by simp)
  | ok diffs =>
    rw [hld, hsingle] at hok
    refine mapM_ok_property_mem _ (fun r => r.hint.directAccess = some true) _ rs hok ?_
    intro item2 hmem r hfr
    have hi : item2 = item := by simpa using hmem
    subst hi
    cases hbh : Hints.buildHint folder.mutation item2 with
    | error e => rw [hbh] at hfr; exact absurd hfr (by simp)
    | ok hint =>
      rw [hbh] at hfr
      cases hbm : Hints.buildMutationOut folder.mutation tc ml with
      | error e => rw [hbm] at hfr; exact absurd hfr (by simp)
      | ok mutOut =>
        rw [hbm] at hfr
        have hr : (⟨mutOut, hint, Hints.selectDiff diffs (Diffs.dictValues diffs) item2⟩ :
            Hints.DiagRecord) = r := by simpa using hfr
        subst hr
        show hint.directAccess = some true
        rw [Hints.buildHint] at hbh
        cases hbi : Hints.buildHintInfection folder.mutation item2
            ⟨item2.hintType, none, none, none⟩ with
        | error e => rw [hbi] at hbh; exact absurd hbh (by simp)
        | ok h1 =>
          rw [hbi] at hbh
          have hda1 : h1.directAccess = some true :=
            buildHintInfection_direct_access folder.mutation item2 _ h1 entry htype hentry
              hcls hmeth hdesc hbi
          have hda3 : hint.directAccess = h1.directAccess := by
            have h5 := buildHintAccessors_directAccess item2 _ hint hbh
            rw [h5, buildHintObservation_directAccess]
          rw [hda3, hda1]

def itemC8 : Hints.HintItem :=
  ⟨str "infection",
   [⟨str "other.Cls", str "m", str "()V"⟩, ⟨str "com.Foo", str "bar", str "()V"⟩],
   str "", none, none⟩

def folderC8 : Hints.HintFolder :=
  ⟨⟨str "mut", str "com", str "Foo", str "bar", str "()V", []⟩, .single itemC8, none⟩

def rsC8 : List Hints.DiagRecord :=
  match Hints.getHints folderC8 [] [] with
  | .ok rs => rs
  | .error _ => []

/-- Witness for C8: a folder with one infection hint listing two entry points,
the second of which equals the mutated method; the emitted record has
`direct_access = true`. -/
theorem infection_entry_point_direct_access_witness :
    (rsC8.headD dummyRecC1).hint.directAccess = some true :=
  infection_entry_point_direct_access folderC8 [] [] rsC8 itemC8
    ⟨str "com.Foo", str "bar", str "()V"⟩ rfl rfl (by decide) (by decide) rfl rfl rfl
    (rsC8.headD dummyRecC1) (by decide)

theorem methodName_ok (e : Hints.MethodEntry)
    (h : (Descriptor.parseDescription e.desc).isSome) :
    ∃ n, Hints.methodName e = .ok n := by
  cases hp : Descriptor.parseDescription e.desc with
  | none => rw [hp] at h; simp at h
  | some v =>
    have hs : Descriptor.signatureFn e.desc
        = some ('(' :: (Descriptor.joinCommas v.1 ++ [')'])) := by
      rw [Descriptor.signatureFn, hp]
      rfl
    rw [Hints.methodName.eq_def, hs]
    exact ⟨_, rfl⟩

theorem buildHint_ok (m : Hints.MutationData) (item : Hints.HintItem)
    (hm : (Descriptor.parseDescription m.description).isSome)
    (hep : item.hintType = str "infection" →
      ∀ e ∈ item.entryPoints, (Descriptor.parseDescription e.desc).isSome)
    (hacc : ∀ accs, item.accessors = some accs →
      ∀ e ∈ accs, (Descriptor.parseDescription e.desc).isSome) :
    ∃ hout, Hints.buildHint m item = .ok hout := by
  rw [Hints.buildHint]
  have hinf : ∃ h1, Hints.buildHintInfection m item ⟨item.hintType, none, none, none⟩
      = .ok h1 := by
    rw [Hints.buildHintInfection]
    by_cases ht : item.hintType = str "infection"
    · rw [if_pos ht]
      obtain ⟨targets, htg, -⟩ := mapM_ok_of_forall Hints.methodName (fun _ => True)
        item.entryPoints
        (fun e he => (methodName_ok e (hep ht e he)).imp (fun n hn => ⟨hn, trivial⟩))
      rw [htg, ok_bind]
      cases hp : Descriptor.parseDescription m.description with
      | none => rw [hp] at hm; simp at hm
      | some v =>
        have hs : Descriptor.signatureFn m.description
            = some ('(' :: (Descriptor.joinCommas v.1 ++ [')'])) := by
          rw [Descriptor.signatureFn, hp]
          rfl
        have hmma : Hints.mutatedMethodIsAccessible m targets
            = .ok (decide ((m.package ++ str "." ++ m.cls ++ str "." ++ m.method
                ++ ('(' :: (Descriptor.joinCommas v.1 ++ [')']))) ∈ targets)) := by
          rw [Hints.mutatedMethodIsAccessible.eq_def, hs]
        rw [hmma, ok_bind]
        exact ⟨_, rfl⟩
    · rw [if_neg ht]
      exact ⟨_, rfl⟩
  obtain ⟨h1, hinf⟩ := hinf
  rw [hinf]
  show ∃ hout, Hints.buildHintAccessors item (Hints.buildHintObservation item h1) = .ok hout
  rw [Hints.buildHintAccessors.eq_def]
  cases hac : item.accessors with
  | none => exact ⟨_, rfl⟩
  | some accs =>
    obtain ⟨targets2, htg2, -⟩ := mapM_ok_of_forall Hints.methodName (fun _ => True) accs
      (fun e he => (methodName_ok e (hacc accs hac e he)).imp (fun n hn => ⟨hn, trivial⟩))
    show ∃ hout, (accs.mapM Hints.methodName >>= fun targets =>
      Except.ok { Hints.buildHintObservation item h1 with targets := some targets }) = .ok hout
    rw [htg2, ok_bind]
    exact ⟨_, rfl⟩

theorem buildMutationOut_ok (m : Hints.MutationData) (tc : Report.TCDict)
    (ml : List (Str × Nat)) (hm : (Descriptor.parseDescription m.description).isSome) :
    ∃ mo, Hints.buildMutationOut m tc ml = .ok mo := by
  cases hp : Descriptor.parseDescription m.description with
  | none => rw [hp] at hm; simp at hm
  | some v =>
    have h1 : Descriptor.signatureFn m.description
        = some ('(' :: (Descriptor.joinCommas v.1 ++ [')'])) := by
      rw [Descriptor.signatureFn, hp]
      rfl
    have h2 : Descriptor.isVoidFn m.description = some (decide (v.2 = str "void")) := by
      rw [Descriptor.isVoidFn, hp]
      rfl
    rw [Hints.buildMutationOut.eq_def, h1, h2]
    exact ⟨_, rfl⟩

/-- C9: with no diff artifact, `load_diffs` returns the empty Diff Index
without raising, and — provided the folder's descriptors are well formed, the
only other fallible steps — assembly succeeds and every emitted record's diff
field is `none`: the zero-diff case is never a crash. -/
theorem zero_diffs_assembly
    (folder : Hints.HintFolder) (tc : Report.TCDict) (ml : List (Str × Nat))
    (hnodiff : folder.diffFile = none)
    (hmut : (Descriptor.parseDescription folder.mutation.description).isSome)
    (hhints : ∀ item ∈ folder.hints.normalize,
      (item.hintType = str "infection" →
        ∀ e ∈ item.entryPoints, (Descriptor.parseDescription e.desc).isSome) ∧
      (∀ accs, item.accessors = some accs →
        ∀ e ∈ accs, (Descriptor.parseDescription e.desc).isSome)) :
    Diffs.loadDiffs folder.diffFile = .ok []
    ∧ ∃ rs, Hints.getHints folder tc ml = .ok rs ∧ ∀ r ∈ rs, r.diff = none := by
  have hld : Diffs.loadDiffs folder.diffFile = .ok [] := by rw [hnodiff]; rfl
  refine ⟨hld, ?_⟩
  rw [Hints.getHints, hld]
  show ∃ rs, folder.hints.normalize.mapM (fun item =>
      (match Hints.buildHint folder.mutation item with
      | Except.error e => Except.error e
      | Except.ok hint =>
        match Hints.buildMutationOut folder.mutation tc ml with
        | Except.error e => Except.error e
        | Except.ok mutOut =>
          Except.ok ⟨mutOut, hint, Hints.selectDiff [] (Diffs.dictValues []) item⟩ :
        Except PyErr Hints.DiagRecord))
      = Except.ok rs ∧ ∀ r ∈ rs, r.diff = none
  refine mapM_ok_of_forall _ (fun (r : Hints.DiagRecord) => r.diff = none) _ ?_
  intro item hitem
  obtain ⟨hout, hbh⟩ := buildHint_ok folder.mutation item hmut
    (hhints item hitem).1 (hhints item hitem).2
  obtain ⟨mo, hbm⟩ := buildMutationOut_ok folder.mutation tc ml hmut
  refine ⟨⟨mo, hout, Hints.selectDiff [] (Diffs.dictValues []) item⟩, ?_, ?_⟩
  · rw [hbh, hbm]
  · show Hints.selectDiff [] (Diffs.dictValues []) item = none
    rw [Hints.selectDiff.eq_def]
    cases item.pointcut <;> rfl

def itemC9 : Hints.HintItem := ⟨str "execution", [], str "", none, none⟩

def folderC9 : Hints.HintFolder :=
  ⟨⟨str "mut", str "com", str "Foo", str "bar", str "()V", []⟩, .single itemC9, none⟩

/-- Witness for C9 at a concrete folder without a diff artifact. -/
theorem zero_diffs_assembly_witness :
    Diffs.loadDiffs folderC9.diffFile = .ok [] :=
  (zero_diffs_assembly folderC9 [] [] rfl (by decide) (by
    intro item hitem
    have hi : item = itemC9 := by
      simpa [folderC9, Hints.HintData.normalize] using hitem
    subst hi
    exact ⟨fun ht e he => absurd he (List.not_mem_nil e),
           fun accs haccs => nomatch haccs⟩)).1
